import Mathlib

/-!
Verification of the SVG extraction/restoration core of `svg_manager.py`.

Documents are modelled as `List Char` (Python `str`).  Regex matching of the
two patterns (`SVG_PATTERN` and `PLACEHOLDER_PATTERN`) is embedded as
executable scanning functions with the exact leftmost / greedy / lazy
semantics of the patterns; case-insensitivity is modelled by ASCII case
folding (the pattern letters are ASCII) and the whitespace class by the
ASCII part of Python's `\s`.  MD5 is implemented in full so that the
identifier derivation `f"{index:04d}_{md5(content)[:8]}"` is computed
exactly as in the source.
-/

set_option maxRecDepth 8000

namespace SvgManager

/-- ASCII lower-casing: models how the regex `IGNORECASE` flag compares the
ASCII letters of `SVG_PATTERN`. -/
def lc (c : Char) : Char :=
  if 'A' ≤ c ∧ c ≤ 'Z' then Char.ofNat (c.toNat + 32) else c

/-- Python whitespace (`str.strip`, regex `\s`), ASCII part:
space, tab, newline, carriage return, vertical tab, form feed. -/
def isPySpace (c : Char) : Bool :=
  c == ' ' || c == '\t' || c == '\n' || c == '\r' || c.toNat == 11 || c.toNat == 12

/-- The character class `[a-f0-9_]` of the identifier group in
`PLACEHOLDER_PATTERN`. -/
def classChar (c : Char) : Bool :=
  ('a' ≤ c && c ≤ 'f') || ('0' ≤ c && c ≤ '9') || c == '_'

/-! ### UTF-8 and MD5 (`svg_content.encode()` and `hashlib.md5`) -/

/-- UTF-8 encoding of one character (`str.encode`). -/
def utf8Char (c : Char) : List Nat :=
  let n := c.toNat
  if n < 128 then [n]
  else if n < 2048 then [192 + n / 64, 128 + n % 64]
  else if n < 65536 then [224 + n / 4096, 128 + n / 64 % 64, 128 + n % 64]
  else [240 + n / 262144, 128 + n / 4096 % 64, 128 + n / 64 % 64, 128 + n % 64]

/-- UTF-8 bytes of a string. -/
def utf8 (s : List Char) : List Nat := (s.map utf8Char).flatten

def M32 : Nat := 4294967296

/-- The 64 MD5 sine-table constants. -/
def mdK : List Nat :=
  [0xd76aa478, 0xe8c7b756, 0x242070db, 0xc1bdceee,
   0xf57c0faf, 0x4787c62a, 0xa8304613, 0xfd469501,
   0x698098d8, 0x8b44f7af, 0xffff5bb1, 0x895cd7be,
   0x6b901122, 0xfd987193, 0xa679438e, 0x49b40821,
   0xf61e2562, 0xc040b340, 0x265e5a51, 0xe9b6c7aa,
   0xd62f105d, 0x02441453, 0xd8a1e681, 0xe7d3fbc8,
   0x21e1cde6, 0xc33707d6, 0xf4d50d87, 0x455a14ed,
   0xa9e3e905, 0xfcefa3f8, 0x676f02d9, 0x8d2a4c8a,
   0xfffa3942, 0x8771f681, 0x6d9d6122, 0xfde5380c,
   0xa4beea44, 0x4bdecfa9, 0xf6bb4b60, 0xbebfbc70,
   0x289b7ec6, 0xeaa127fa, 0xd4ef3085, 0x04881d05,
   0xd9d4d039, 0xe6db99e5, 0x1fa27cf8, 0xc4ac5665,
   0xf4292244, 0x432aff97, 0xab9423a7, 0xfc93a039,
   0x655b59c3, 0x8f0ccc92, 0xffeff47d, 0x85845dd1,
   0x6fa87e4f, 0xfe2ce6e0, 0xa3014314, 0x4e0811a1,
   0xf7537e82, 0xbd3af235, 0x2ad7d2bb, 0xeb86d391]

/-- The 64 MD5 per-round left-rotation amounts. -/
def mdS : List Nat :=
  [7, 12, 17, 22, 7, 12, 17, 22, 7, 12, 17, 22, 7, 12, 17, 22,
   5, 9, 14, 20, 5, 9, 14, 20, 5, 9, 14, 20, 5, 9, 14, 20,
   4, 11, 16, 23, 4, 11, 16, 23, 4, 11, 16, 23, 4, 11, 16, 23,
   6, 10, 15, 21, 6, 10, 15, 21, 6, 10, 15, 21, 6, 10, 15, 21]

/-- 32-bit left rotation (inputs below `2^32`). -/
def rotl32 (x n : Nat) : Nat := (x * 2 ^ n + x / 2 ^ (32 - n)) % M32

/-- 32-bit complement. -/
def not32 (x : Nat) : Nat := Nat.xor x 4294967295

def md5F (b c d : Nat) : Nat := Nat.lor (Nat.land b c) (Nat.land (not32 b) d)
def md5G (b c d : Nat) : Nat := Nat.lor (Nat.land b d) (Nat.land c (not32 d))
def md5H (b c d : Nat) : Nat := Nat.xor (Nat.xor b c) d
def md5I (b c d : Nat) : Nat := Nat.xor c (Nat.lor b (not32 d))

/-- MD5 message padding: `0x80`, zeros to 56 mod 64, 8-byte little-endian
bit length. -/
def md5Pad (msg : List Nat) : List Nat :=
  let L := msg.length
  msg ++ 128 :: List.replicate ((119 - L % 64) % 64) 0
      ++ (List.range 8).map (fun i => 8 * L % 2 ^ 64 / 2 ^ (8 * i) % 256)

/-- Little-endian 32-bit word `j` of a 64-byte block. -/
def md5Word (blk : List Nat) (j : Nat) : Nat :=
  blk.getD (4 * j) 0 + 256 * blk.getD (4 * j + 1) 0
    + 65536 * blk.getD (4 * j + 2) 0 + 16777216 * blk.getD (4 * j + 3) 0

/-- One of the 64 MD5 operations. -/
def md5Round (blk : List Nat) (st : Nat × Nat × Nat × Nat) (i : Nat) :
    Nat × Nat × Nat × Nat :=
  let (a, b, c, d) := st
  let f := if i < 16 then md5F b c d else if i < 32 then md5G b c d
           else if i < 48 then md5H b c d else md5I b c d
  let g := if i < 16 then i else if i < 32 then (5 * i + 1) % 16
           else if i < 48 then (3 * i + 5) % 16 else 7 * i % 16
  let f2 := (f + a + mdK.getD i 0 + md5Word blk g) % M32
  (d, (b + rotl32 f2 (mdS.getD i 0)) % M32, b, c)

/-- Process one 64-byte block. -/
def md5Block (st : Nat × Nat × Nat × Nat) (blk : List Nat) :
    Nat × Nat × Nat × Nat :=
  let r := (List.range 64).foldl (md5Round blk) st
  ((st.1 + r.1) % M32, (st.2.1 + r.2.1) % M32,
   (st.2.2.1 + r.2.2.1) % M32, (st.2.2.2 + r.2.2.2) % M32)

/-- Little-endian bytes of a 32-bit word. -/
def leBytes (w : Nat) : List Nat :=
  [w % 256, w / 256 % 256, w / 65536 % 256, w / 16777216 % 256]

/-- The 16-byte MD5 digest of a byte string. -/
def md5Digest (msg : List Nat) : List Nat :=
  let padded := md5Pad msg
  let st := (List.range (padded.length / 64)).foldl
    (fun st b => md5Block st ((padded.drop (64 * b)).take 64))
    (0x67452301, 0xefcdab89, 0x98badcfe, 0x10325476)
  leBytes st.1 ++ leBytes st.2.1 ++ leBytes st.2.2.1 ++ leBytes st.2.2.2

/-- Lowercase hex digit. -/
def hexChar (n : Nat) : Char :=
  if n < 10 then Char.ofNat (48 + n) else Char.ofNat (87 + n)

/-- `hashlib.md5(...).hexdigest()`: 32 lowercase hex characters. -/
def md5hex (msg : List Nat) : List Char :=
  ((md5Digest msg).map (fun b => [hexChar (b / 16), hexChar (b % 16)])).flatten

/-! ### Identifier derivation (`SVGManager._generate_svg_id`) -/

/-- Decimal digits of a natural number, most significant first. -/
def decDigits (n : Nat) : List Char :=
  if _h : n < 10 then [Char.ofNat (48 + n)]
  else decDigits (n / 10) ++ [Char.ofNat (48 + n % 10)]
decreasing_by exact Nat.div_lt_self (by omega) (by omega)

/-- Python `f"{n:04d}"`: decimal rendering zero-padded to width at least 4. -/
def pad4 (n : Nat) : List Char :=
  List.replicate (4 - (decDigits n).length) '0' ++ decDigits n

/-- `SVGManager._generate_svg_id`: zero-padded index, underscore, first 8 hex
characters of the MD5 of the content. -/
def generate_svg_id (content : List Char) (index : Nat) : List Char :=
  pad4 index ++ '_' :: (md5hex (utf8 content)).take 8

/-! ### Context capture (`SVGManager._extract_context`) -/

/-- Python `str.strip()`. -/
def pyStrip (l : List Char) : List Char :=
  ((l.dropWhile isPySpace).reverse.dropWhile isPySpace).reverse

/-- `re.sub(r'\s+', ' ', s)`: each maximal whitespace run becomes one space. -/
def collapseWs : List Char → List Char
  | [] => []
  | c :: r =>
    if isPySpace c then ' ' :: collapseWs (r.dropWhile isPySpace)
    else c :: collapseWs r
termination_by l => l.length
decreasing_by
  · exact Nat.lt_succ_of_le (r.dropWhile_sublist isPySpace).length_le
  · simp

/-- `SVGManager._extract_context`: the at-most-`cc`-character windows before
`s` and after `e`, clipped at the document ends, each stripped and
whitespace-collapsed. -/
def extract_context (cc : Nat) (html : List Char) (s e : Nat) :
    List Char × List Char :=
  let before := (html.take s).drop (s - cc)
  let after := (html.drop e).take cc
  (collapseWs (pyStrip before), collapseWs (pyStrip after))

/-! ### Placeholder construction (`SVGManager._create_placeholder`) -/

def litOpen : List Char := "<svg".toList
def litClose : List Char := "</svg>".toList
def litPH : List Char := "SVG_PLACEHOLDER".toList
def litStart : List Char := "SVG_PLACEHOLDER_START:".toList
def litEnd : List Char := "SVG_PLACEHOLDER_END:".toList
def litBang : List Char := "<!--".toList
def litArrow : List Char := "-->".toList

def phA : List Char := "<!-- SVG_PLACEHOLDER_START:".toList
def phB : List Char := " -->\n<!-- CONTEXT_BEFORE: ".toList
def phC : List Char := " -->\n<!-- CONTEXT_AFTER: ".toList
def phD : List Char := " -->\n<span class=\"svg-placeholder\" data-svg-id=\"".toList
def phE : List Char := "\"></span>\n<!-- SVG_PLACEHOLDER_END:".toList
def phF : List Char := " -->".toList

/-- `SVGManager._create_placeholder`: the five-line placeholder, with both
context annotations truncated to 100 characters. -/
def create_placeholder (svg_id cb ca : List Char) : List Char :=
  phA ++ svg_id ++ phB ++ cb.take 100 ++ phC ++ ca.take 100
      ++ phD ++ svg_id ++ phE ++ svg_id ++ phF

/-! ### The SVG locator (`SVG_PATTERN = <svg\s+[^>]*>.*?</svg>`, DOTALL,
IGNORECASE) -/

/-- Case-insensitive literal test at the head of a string. -/
def matchesCI (pat l : List Char) : Bool :=
  (l.take pat.length).map lc == pat.map lc

/-- Case-sensitive literal test at the head of a string. -/
def matchesLit (pat l : List Char) : Bool :=
  l.take pat.length == pat

/-- Index of the first case-insensitive occurrence of `pat`. -/
def findOccCI (pat : List Char) : List Char → Option Nat
  | [] => if matchesCI pat [] then some 0 else none
  | c :: r =>
    if matchesCI pat (c :: r) then some 0 else (findOccCI pat r).map (· + 1)

/-- Length matched by `<svg\s+[^>]*>` at the head of `t`: `<svg` (case
folded), one mandatory whitespace, then everything up to and including the
first `>`. -/
def svgOpenLen (t : List Char) : Option Nat :=
  if matchesCI litOpen t then
    match t.drop 4 with
    | [] => none
    | c :: r =>
      if isPySpace c then (r.findIdx? (· == '>')).map (fun j => 6 + j)
      else none
  else none

/-- Length matched by the whole `SVG_PATTERN` at the head of `t`: the lazy
`.*?` stops at the first subsequent `</svg>`. -/
def svgMatchLen (t : List Char) : Option Nat :=
  match svgOpenLen t with
  | none => none
  | some n =>
    match findOccCI litClose (t.drop n) with
    | none => none
    | some k => some (n + k + 6)

/-- `SVG_PATTERN.finditer`: leftmost matches, scan resuming after each
match end; `t` is the suffix of the document at absolute position `p` and
the returned pairs are absolute `(start, end)` spans. -/
def svgScan : List Char → Nat → List (Nat × Nat)
  | [], _ => []
  | c :: r, p =>
    match _h : svgMatchLen (c :: r) with
    | some n => (p, p + n) :: svgScan ((c :: r).drop n) (p + n)
    | none => svgScan r (p + 1)
termination_by t _ => t.length
decreasing_by
  · unfold svgMatchLen at _h
    split at _h
    · exact absurd _h (by simp)
    · split at _h
      · exact absurd _h (by simp)
      · simp only [Option.some.injEq] at _h
        simp only [List.length_drop, List.length_cons]
        omega
  · simp

/-! ### Extraction (`SVGManager.extract_svgs`) -/

/-- One extracted record (`svg_data` dict of the source). -/
structure SvgData where
  id : List Char
  index : Nat
  svg_content : List Char
  context_before : List Char
  context_after : List Char
  pos_start : Nat
  pos_end : Nat
deriving DecidableEq, Repr

/-- The loop body of `extract_svgs`: walks the match list keeping the
running document and the cumulative length offset (an integer, as
placeholders may be shorter or longer than the content they replace). -/
def extractLoop (cc : Nat) (html : List Char) :
    List (Nat × Nat) → Nat → List Char → Int → List Char × List SvgData
  | [], _, modified, _ => (modified, [])
  | (s, e) :: rest, index, modified, offset =>
    let svg_content := (html.drop s).take (e - s)
    let adjS := ((s : Int) + offset).toNat
    let adjE := ((e : Int) + offset).toNat
    let svg_id := generate_svg_id svg_content index
    let ctx := extract_context cc html s e
    let ph := create_placeholder svg_id ctx.1 ctx.2
    let modified' := modified.take adjS ++ ph ++ modified.drop adjE
    let offset' := offset + (ph.length : Int) - (svg_content.length : Int)
    let res := extractLoop cc html rest (index + 1) modified' offset'
    (res.1, ⟨svg_id, index, svg_content, ctx.1, ctx.2, s, e⟩ :: res.2)

/-- `SVGManager.extract_svgs`. -/
def extract_svgs (cc : Nat) (html : List Char) : List Char × List SvgData :=
  extractLoop cc html (svgScan html 0) 0 html 0

/-! ### The placeholder decoder (`PLACEHOLDER_PATTERN`, DOTALL) and
restoration (`SVGManager.restore_svgs`) -/

/-- Length of the maximal whitespace run at the head (regex `\s*`). -/
def wsRun (t : List Char) : Nat := (t.takeWhile isPySpace).length

/-- Match of `<!--\s*SVG_PLACEHOLDER_START:([a-f0-9_]+)\s*-->` at the head
of `t` (`<!--`, a greedy whitespace run, the literal, a greedy nonempty
identifier-class run — the capture group — a greedy whitespace run, `-->`);
returns the matched length and the captured identifier.  The repeated
subexpressions stand for: the text after `<!--` and the whitespace run
(`t.drop (4 + wsRun (t.drop 4))`), and the captured run after the literal. -/
def startMarker (t : List Char) : Option (Nat × List Char) :=
  if matchesLit litBang t then
    if matchesLit litStart (t.drop (4 + wsRun (t.drop 4))) then
      if ((((t.drop (4 + wsRun (t.drop 4))).drop litStart.length).takeWhile
          classChar)).isEmpty then none
      else
        if matchesLit litArrow
            ((((t.drop (4 + wsRun (t.drop 4))).drop
              (litStart.length +
                ((((t.drop (4 + wsRun (t.drop 4))).drop litStart.length).takeWhile
                  classChar)).length))).drop
              (wsRun ((t.drop (4 + wsRun (t.drop 4))).drop
                (litStart.length +
                  ((((t.drop (4 + wsRun (t.drop 4))).drop litStart.length).takeWhile
                    classChar)).length)))) then
          some (4 + wsRun (t.drop 4) + litStart.length +
              ((((t.drop (4 + wsRun (t.drop 4))).drop litStart.length).takeWhile
                classChar)).length +
              wsRun ((t.drop (4 + wsRun (t.drop 4))).drop
                (litStart.length +
                  ((((t.drop (4 + wsRun (t.drop 4))).drop litStart.length).takeWhile
                    classChar)).length)) + 3,
            (((t.drop (4 + wsRun (t.drop 4))).drop litStart.length).takeWhile
              classChar))
        else none
    else none
  else none

/-- Match of `<!--\s*SVG_PLACEHOLDER_END:\1\s*-->` (back-reference bound to
`svg_id`) at the head of `t`. -/
def endMarker (svg_id : List Char) (t : List Char) : Option Nat :=
  if matchesLit litBang t then
    if matchesLit litEnd (t.drop (4 + wsRun (t.drop 4))) then
      if matchesLit svg_id ((t.drop (4 + wsRun (t.drop 4))).drop litEnd.length) then
        if matchesLit litArrow
            ((((t.drop (4 + wsRun (t.drop 4))).drop litEnd.length).drop
                svg_id.length).drop
              (wsRun (((t.drop (4 + wsRun (t.drop 4))).drop litEnd.length).drop
                svg_id.length))) then
          some (4 + wsRun (t.drop 4) + litEnd.length + svg_id.length +
            wsRun (((t.drop (4 + wsRun (t.drop 4))).drop litEnd.length).drop
              svg_id.length) + 3)
        else none
      else none
    else none
  else none

/-- The lazy `.*?` before the end marker: distance to the end of the first
position where the end marker matches. -/
def findEnd (svg_id : List Char) : List Char → Option Nat
  | [] => none
  | c :: r =>
    match endMarker svg_id (c :: r) with
    | some m => some m
    | none => (findEnd svg_id r).map (· + 1)

/-- Match of the whole `PLACEHOLDER_PATTERN` at the head of `t`. -/
def placeholderMatch (t : List Char) : Option (Nat × List Char) :=
  match startMarker t with
  | none => none
  | some (n1, idc) =>
    match findEnd idc (t.drop n1) with
    | none => none
    | some m => some (n1 + m, idc)

/-- The `svg_map` dict lookup: later records overwrite earlier ones, as in
the Python dict comprehension. -/
def dictGet (l : List SvgData) (k : List Char) : Option (List Char) :=
  (l.reverse.find? (fun d => d.id == k)).map (fun d => d.svg_content)

/-- `PLACEHOLDER_PATTERN.sub(replace_placeholder, html)`: leftmost matches
replaced by the looked-up content, a missing identifier keeping the
placeholder text and producing a warning (second component). -/
def phScan (data : List SvgData) : List Char → List Char × List (List Char)
  | [] => ([], [])
  | c :: r =>
    match _h : placeholderMatch (c :: r) with
    | some (n, idc) =>
      let rest := phScan data ((c :: r).drop n)
      match dictGet data idc with
      | some content => (content ++ rest.1, rest.2)
      | none => ((c :: r).take n ++ rest.1, idc :: rest.2)
    | none =>
      let rest := phScan data r
      (c :: rest.1, rest.2)
termination_by l => l.length
decreasing_by
  · unfold placeholderMatch at _h
    split at _h
    next => exact absurd _h (by simp)
    next n1 idc' hstart =>
      split at _h
      next => exact absurd _h (by simp)
      next k hend =>
        simp only [Option.some.injEq, Prod.mk.injEq] at _h
        obtain ⟨hn, -⟩ := _h
        simp only [startMarker] at hstart
        split_ifs at hstart <;> simp at hstart
        obtain ⟨h1, -⟩ := hstart
        simp only [List.length_drop, List.length_cons]
        omega
  · simp

/-- `SVGManager.restore_svgs`; the second component collects the warnings
(`"SVG with ID ... not found"`) in emission order. -/
def restore_svgs (html : List Char) (data : List SvgData) :
    List Char × List (List Char) :=
  phScan data html

/-! ### Statistics (`SVGManager.get_svg_stats`) -/

/-- Result of `get_svg_stats`: either the explicit `{'total': 0}` dict or
the five-field dict.  The float average `sum/len` is modelled as the exact
rational. -/
inductive SvgStats where
  | emptyStats : SvgStats
  | fullStats (total min_size max_size : Nat) (avg_size : Rat)
      (total_size : Nat) : SvgStats
deriving DecidableEq, Repr

/-- The `total` entry of the stats dict. -/
def SvgStats.total : SvgStats → Nat
  | .emptyStats => 0
  | .fullStats t _ _ _ _ => t

/-- Python `min` over a nonempty list. -/
def minList : List Nat → Nat
  | [] => 0
  | x :: r => r.foldl min x

/-- Python `max` over a nonempty list. -/
def maxList : List Nat → Nat
  | [] => 0
  | x :: r => r.foldl max x

/-- `SVGManager.get_svg_stats`. -/
def get_svg_stats (l : List SvgData) : SvgStats :=
  match l with
  | [] => .emptyStats
  | d :: r =>
    let sizes := (d :: r).map (fun x => x.svg_content.length)
    .fullStats (d :: r).length (minList sizes) (maxList sizes)
      ((sizes.sum : Rat) / ((d :: r).length : Rat)) sizes.sum

/-! ### Occurrence predicates

`occAt f pat l i` states that the literal `pat` occurs in `l` at position
`i`, with characters compared through `f` (`f = lc` for the
case-insensitive `SVG_PATTERN` literals, `f = id` for the case-sensitive
`PLACEHOLDER_PATTERN` literals). -/

def occAt (f : Char → Char) (pat l : List Char) (i : Nat) : Prop :=
  ((l.drop i).take pat.length).map f = pat.map f

instance (f : Char → Char) (pat l : List Char) (i : Nat) :
    Decidable (occAt f pat l i) := by unfold occAt; exact inferInstance

/-- `pat` occurs nowhere in `l` (under `f`). -/
def noOcc (f : Char → Char) (pat l : List Char) : Prop :=
  ∀ i < l.length, ¬ occAt f pat l i

instance (f : Char → Char) (pat l : List Char) : Decidable (noOcc f pat l) :=
  Nat.decidableBallLT _ _

/-- A well-formed SVG block as recognised by `SVG_PATTERN`:
`<svg` (any case), one whitespace character, attribute text free of `>`,
the closing `>` of the opening tag, body text, and a case-folded `</svg>`
which is the first closing marker after the opening tag. -/
def IsWfSvg (s : List Char) : Prop :=
  ∃ o c attrs body cl,
    s = o ++ (c :: (attrs ++ ('>' :: (body ++ cl)))) ∧
    o.map lc = litOpen.map lc ∧ isPySpace c = true ∧
    (∀ a ∈ attrs, (a == '>') = false) ∧ cl.map lc = litClose.map lc ∧
    ∀ i < body.length, ¬ occAt lc litClose (body ++ cl) i

/-- Declarative reading of a span reported by the locator: the document
splits at the span boundaries and the spanned text is a well-formed block
(modelled from the spec's description of the locator contract). -/
def SpecSpan (d : List Char) (s e : Nat) : Prop :=
  ∃ front svg rest,
    d = front ++ svg ++ rest ∧ front.length = s ∧ e = s + svg.length ∧
    IsWfSvg svg

/-- Assemble a document from (gap, block) segments and a final tail. -/
def asmSeg : List (List Char × List Char) → List Char → List Char
  | [], tail => tail
  | (g, b) :: r, tail => g ++ b ++ asmSeg r tail

/-- The spans of the blocks of `asmSeg`, the first segment starting at
absolute position `p`. -/
def spansOf : List (List Char × List Char) → Nat → List (Nat × Nat)
  | [], _ => []
  | (g, b) :: r, p =>
    (p + g.length, p + g.length + b.length) :: spansOf r (p + g.length + b.length)

/-- Assemble a document from (gap, (identifier, contexts)) segments, each
block rendered as the placeholder `_create_placeholder` emits. -/
def asmPB : List (List Char × (List Char × List Char × List Char)) →
    List Char → List Char
  | [], tail => tail
  | (g, (sid, cb, ca)) :: r, tail =>
    g ++ create_placeholder sid cb ca ++ asmPB r tail

/-- Expected result of restoring `asmPB`: placeholders whose identifier is
known are replaced by the looked-up content, the others stay. -/
def expRestore (data : List SvgData) :
    List (List Char × (List Char × List Char × List Char)) → List Char →
    List Char
  | [], tail => tail
  | (g, (sid, cb, ca)) :: r, tail =>
    g ++ (match dictGet data sid with
          | some content => content
          | none => create_placeholder sid cb ca) ++ expRestore data r tail

/-- Expected warnings of restoring `asmPB`: the identifiers missing from
the record list, in document order. -/
def expWarn (data : List SvgData) :
    List (List Char × (List Char × List Char × List Char)) →
    List (List Char)
  | [] => []
  | (_, (sid, _, _)) :: r =>
    match dictGet data sid with
    | some _ => expWarn data r
    | none => sid :: expWarn data r

/-- The placeholder data produced by extracting the blocks of
`asmSeg L tail` from document `D`: position `p` is the absolute start of
the current segment and `k` the index of its block. -/
def mkPhData (cc : Nat) (D : List Char) :
    List (List Char × List Char) → Nat → Nat →
    List (List Char × (List Char × List Char × List Char))
  | [], _, _ => []
  | (g, b) :: r, p, k =>
    (g, (generate_svg_id b k,
         (extract_context cc D (p + g.length) (p + g.length + b.length)).1,
         (extract_context cc D (p + g.length) (p + g.length + b.length)).2))
      :: mkPhData cc D r (p + g.length + b.length) (k + 1)

/-- The records produced by extracting the blocks of `asmSeg L tail`. -/
def mkRecords (cc : Nat) (D : List Char) :
    List (List Char × List Char) → Nat → Nat → List SvgData
  | [], _, _ => []
  | (g, b) :: r, p, k =>
    ⟨generate_svg_id b k, k, b,
     (extract_context cc D (p + g.length) (p + g.length + b.length)).1,
     (extract_context cc D (p + g.length) (p + g.length + b.length)).2,
     p + g.length, p + g.length + b.length⟩
      :: mkRecords cc D r (p + g.length + b.length) (k + 1)

/-- Value of a decimal digit string (inverse of `decDigits`, used to show
the index rendering is injective). -/
def decVal (l : List Char) : Nat :=
  l.foldl (fun a c => 10 * a + (c.toNat - 48)) 0

/-! ### Fuel-indexed structural twins of the well-founded functions

The scanners above are defined by well-founded recursion, which the kernel
does not reduce; these twins recurse structurally on an explicit fuel and
are proved equal to them, so that concrete runs of the pipeline can be
established by `decide`. -/

def decDigitsF : Nat → Nat → List Char
  | 0, _ => []
  | fuel + 1, n =>
    if n < 10 then [Char.ofNat (48 + n)]
    else decDigitsF fuel (n / 10) ++ [Char.ofNat (48 + n % 10)]

def pad4F (n : Nat) : List Char :=
  List.replicate (4 - (decDigitsF (n + 1) n).length) '0' ++ decDigitsF (n + 1) n

def generate_svg_idF (content : List Char) (index : Nat) : List Char :=
  pad4F index ++ '_' :: (md5hex (utf8 content)).take 8

def collapseWsF : Nat → List Char → List Char
  | 0, _ => []
  | fuel + 1, l =>
    match l with
    | [] => []
    | c :: r =>
      if isPySpace c then ' ' :: collapseWsF fuel (r.dropWhile isPySpace)
      else c :: collapseWsF fuel r

def extract_contextF (cc : Nat) (html : List Char) (s e : Nat) :
    List Char × List Char :=
  let before := (html.take s).drop (s - cc)
  let after := (html.drop e).take cc
  (collapseWsF (pyStrip before).length (pyStrip before),
   collapseWsF (pyStrip after).length (pyStrip after))

def svgScanF : Nat → List Char → Nat → List (Nat × Nat)
  | 0, _, _ => []
  | fuel + 1, l, p =>
    match l with
    | [] => []
    | c :: r =>
      match svgMatchLen (c :: r) with
      | some n => (p, p + n) :: svgScanF fuel ((c :: r).drop n) (p + n)
      | none => svgScanF fuel r (p + 1)

def extractLoopF (cc : Nat) (html : List Char) :
    List (Nat × Nat) → Nat → List Char → Int → List Char × List SvgData
  | [], _, modified, _ => (modified, [])
  | (s, e) :: rest, index, modified, offset =>
    let svg_content := (html.drop s).take (e - s)
    let adjS := ((s : Int) + offset).toNat
    let adjE := ((e : Int) + offset).toNat
    let svg_id := generate_svg_idF svg_content index
    let ctx := extract_contextF cc html s e
    let ph := create_placeholder svg_id ctx.1 ctx.2
    let modified' := modified.take adjS ++ ph ++ modified.drop adjE
    let offset' := offset + (ph.length : Int) - (svg_content.length : Int)
    let res := extractLoopF cc html rest (index + 1) modified' offset'
    (res.1, ⟨svg_id, index, svg_content, ctx.1, ctx.2, s, e⟩ :: res.2)

def extract_svgsF (cc : Nat) (html : List Char) : List Char × List SvgData :=
  extractLoopF cc html (svgScanF html.length html 0) 0 html 0

/-- The document of the second-pass counterexample: two SVG blocks close
enough that each one's context window covers the other block's text. -/
def cexDoc : List Char :=
  "<a>1</a><svg a=\x22b\x22>x</svg><b>2</b><svg a=\x22b\x22>y</svg>tail".toList

theorem occAt_le {f : Char → Char} {pat l : List Char} {i : Nat}
    (hp : pat ≠ []) (h : occAt f pat l i) : i + pat.length ≤ l.length := by
  unfold occAt at h
  have hlen := congrArg List.length h
  simp only [List.length_map, List.length_take, List.length_drop] at hlen
  have : 0 < pat.length := List.length_pos.mpr hp
  omega

theorem occAt_get {f : Char → Char} {pat l : List Char} {i : Nat}
    (h : occAt f pat l i) :
    ∀ j < pat.length, (l[i + j]?).map f = (pat[j]?).map f := by
  intro j hj
  unfold occAt at h
  have := congrArg (fun t => t[j]?) h
  simpa [List.getElem?_take, List.getElem?_drop, List.getElem?_map, hj]
    using this

theorem occAt_of_get {f : Char → Char} {pat l : List Char} {i : Nat}
    (h1 : i + pat.length ≤ l.length)
    (h2 : ∀ j < pat.length, (l[i + j]?).map f = (pat[j]?).map f) :
    occAt f pat l i := by
  unfold occAt
  apply List.ext_getElem?
  intro j
  by_cases hj : j < pat.length
  · simpa [List.getElem?_take, List.getElem?_drop, List.getElem?_map, hj]
      using h2 j hj
  · have hj' : pat.length ≤ j := by omega
    simp [List.getElem?_take, List.getElem?_map, hj,
      List.getElem?_eq_none hj']

theorem occAt_cons_succ {f : Char → Char} {pat : List Char} {c : Char}
    {r : List Char} {j : Nat} :
    occAt f pat (c :: r) (j + 1) ↔ occAt f pat r j := by
  unfold occAt
  rw [List.drop_succ_cons]

/-- An occurrence that fits inside the left part of an append is an
occurrence in that part, and conversely. -/
theorem occAt_append_left {f : Char → Char} {pat X Y : List Char} {i : Nat}
    (h : i + pat.length ≤ X.length) :
    occAt f pat (X ++ Y) i ↔ occAt f pat X i := by
  unfold occAt
  have hw : ((X ++ Y).drop i).take pat.length = (X.drop i).take pat.length := by
    apply List.ext_getElem?
    intro j
    by_cases hj : j < pat.length
    · simp only [List.getElem?_take, hj, if_pos, List.getElem?_drop]
      rw [List.getElem?_append, if_pos (by omega)]
    · simp [List.getElem?_take, hj]
  rw [hw]

theorem occAt_append_right {f : Char → Char} {pat X Y : List Char} {i : Nat}
    (h : X.length ≤ i) :
    occAt f pat (X ++ Y) i ↔ occAt f pat Y (i - X.length) := by
  unfold occAt
  rw [List.drop_append_eq_append_drop, List.drop_of_length_le h,
    List.nil_append]

theorem occAt_of_middle {f : Char → Char} {pat a m b : List Char} {i : Nat}
    (hp : pat ≠ []) (h : occAt f pat m i) :
    occAt f pat (a ++ (m ++ b)) (a.length + i) := by
  have hle := occAt_le hp h
  rw [occAt_append_right (by omega), Nat.add_sub_cancel_left]
  rw [occAt_append_left (by omega)]
  exact h

/-- No occurrence in a list gives no occurrence in any of its infixes. -/
theorem noOcc_middle {f : Char → Char} {pat a m b : List Char}
    (hp : pat ≠ []) (h : noOcc f pat (a ++ (m ++ b))) : noOcc f pat m := by
  intro i hi hocc
  have := occAt_of_middle hp hocc (a := a) (b := b)
  exact h (a.length + i) (by simp; omega) this

/-- An occurrence crossing the boundary of an append pins down the image of
the first character of the right part. -/
theorem occAt_straddle {f : Char → Char} {pat X Y : List Char} {i : Nat}
    (h : occAt f pat (X ++ Y) i) (h1 : i < X.length)
    (h2 : X.length < i + pat.length) :
    (Y[0]?).map f = (pat[X.length - i]?).map f := by
  have := occAt_get h (X.length - i) (by omega)
  rw [show i + (X.length - i) = X.length by omega] at this
  rwa [List.getElem?_append_right (le_refl _), Nat.sub_self] at this

/-- Splitting rule for occurrence-freeness of an append. -/
theorem noOcc_append {f : Char → Char} {pat X Y : List Char}
    (hp : pat ≠ []) (hX : noOcc f pat X) (hY : noOcc f pat Y)
    (hs : ∀ i, i < X.length → X.length < i + pat.length →
      ¬ occAt f pat (X ++ Y) i) :
    noOcc f pat (X ++ Y) := by
  intro i hi hocc
  have hplen : 0 < pat.length := List.length_pos.mpr hp
  by_cases hXi : X.length ≤ i
  · rw [occAt_append_right hXi] at hocc
    exact hY (i - X.length) (by simp at hi; omega) hocc
  · by_cases hfit : i + pat.length ≤ X.length
    · rw [occAt_append_left hfit] at hocc
      exact hX i (by omega) hocc
    · exact hs i (by omega) (by omega) hocc

/-- Occurrence-freeness of an append when the head of the right part cannot
appear at any positive position of the pattern. -/
theorem noOcc_append_head {f : Char → Char} {pat X Y : List Char}
    (hp : pat ≠ []) (hX : noOcc f pat X) (hY : noOcc f pat Y)
    (hh : ∀ k < pat.length, 0 < k →
      (Y[0]?).map f ≠ (pat[k]?).map f) :
    noOcc f pat (X ++ Y) := by
  refine noOcc_append hp hX hY ?_
  intro i h1 h2 hocc
  exact hh (X.length - i) (by
    have := occAt_le hp hocc
    simp at this
    omega) (by omega) (occAt_straddle hocc h1 h2)

/-! ### Bridges between the boolean matchers and `occAt` -/

theorem matchesCI_iff {pat t : List Char} :
    matchesCI pat t = true ↔ occAt lc pat t 0 := by
  unfold matchesCI occAt
  rw [List.drop_zero, beq_iff_eq]

theorem map_id_eq (l : List Char) : l.map (fun c => c) = l := by
  simp

theorem matchesLit_iff {pat t : List Char} :
    matchesLit pat t = true ↔ occAt (fun c => c) pat t 0 := by
  unfold matchesLit occAt
  rw [List.drop_zero, beq_iff_eq, map_id_eq, map_id_eq]

theorem matchesLit_of_front {pat Z : List Char} :
    matchesLit pat (pat ++ Z) = true := by
  unfold matchesLit
  rw [List.take_left]
  exact beq_self_eq_true pat

/-- An occurrence of `P ++ Q` yields an occurrence of `P` at the same spot. -/
theorem occAt_front {f : Char → Char} {P Q l : List Char} {i : Nat}
    (h : occAt f (P ++ Q) l i) : occAt f P l i := by
  unfold occAt at h ⊢
  have := congrArg (fun t => t.take P.length) h
  simpa [List.take_take, List.map_take, List.take_left,
    Nat.min_eq_left (by simp : P.length ≤ (P ++ Q).length)] using this

theorem occAt_drop {f : Char → Char} {pat l : List Char} {j i : Nat} :
    occAt f pat (l.drop j) i ↔ occAt f pat l (j + i) := by
  unfold occAt
  rw [List.drop_drop]

/-! ### First-occurrence searches -/

theorem findOccCI_some {pat l : List Char} {m : Nat}
    (h : findOccCI pat l = some m) :
    occAt lc pat l m ∧ ∀ j < m, ¬ occAt lc pat l j := by
  induction l generalizing m with
  | nil =>
    unfold findOccCI at h
    split at h
    · next hm =>
      simp only [Option.some.injEq] at h
      exact ⟨h ▸ matchesCI_iff.mp hm, by omega⟩
    · exact absurd h (by simp)
  | cons c r ih =>
    unfold findOccCI at h
    split at h
    · next hm =>
      simp only [Option.some.injEq] at h
      exact ⟨h ▸ matchesCI_iff.mp hm, by omega⟩
    · next hm =>
      obtain ⟨m', hm', rfl⟩ : ∃ m', findOccCI pat r = some m' ∧ m' + 1 = m := by
        cases hf : findOccCI pat r <;> rw [hf] at h <;> simp_all
      obtain ⟨h1, h2⟩ := ih hm'
      refine ⟨occAt_cons_succ.mpr h1, ?_⟩
      intro j hj
      cases j with
      | zero => exact fun hocc => by simp [matchesCI_iff.mpr hocc] at hm
      | succ j' => exact fun hocc => h2 j' (by omega) (occAt_cons_succ.mp hocc)

theorem findOccCI_none {pat l : List Char} (h : findOccCI pat l = none) :
    ∀ j, ¬ occAt lc pat l j := by
  induction l with
  | nil =>
    intro j hocc
    unfold occAt at hocc
    have : pat.map lc = [] := by
      simpa using hocc.symm
    have hpat : pat = [] := by simpa using congrArg List.length this
    unfold findOccCI at h
    rw [if_pos (by simp [matchesCI, hpat])] at h
    exact absurd h (by simp)
  | cons c r ih =>
    intro j hocc
    unfold findOccCI at h
    split at h
    · exact absurd h (by simp)
    · next hm =>
      have hr : findOccCI pat r = none := by
        cases hf : findOccCI pat r <;> rw [hf] at h <;> simp_all
      cases j with
      | zero => exact hm (matchesCI_iff.mpr hocc)
      | succ j' => exact ih hr j' (occAt_cons_succ.mp hocc)

theorem findOccCI_eq_some {pat l : List Char} {m : Nat}
    (h1 : occAt lc pat l m) (h2 : ∀ j < m, ¬ occAt lc pat l j) :
    findOccCI pat l = some m := by
  induction l generalizing m with
  | nil =>
    have hm : m = 0 := by
      by_contra hm
      refine h2 0 (by omega) ?_
      unfold occAt at h1 ⊢
      have : pat.map lc = [] := by simpa using h1.symm
      simp [this]
    subst hm
    unfold findOccCI
    rw [if_pos (matchesCI_iff.mpr h1)]
  | cons c r ih =>
    by_cases h0 : matchesCI pat (c :: r) = true
    · have hm : m = 0 := by
        by_contra hm
        exact h2 0 (by omega) (matchesCI_iff.mp h0)
      subst hm
      unfold findOccCI
      rw [if_pos h0]
    · cases m with
      | zero => exact absurd (matchesCI_iff.mpr h1) h0
      | succ m' =>
        unfold findOccCI
        rw [if_neg h0,
          ih (occAt_cons_succ.mp h1)
            (fun j hj hocc => h2 (j + 1) (by omega) (occAt_cons_succ.mpr hocc))]
        rfl

/-! ### `findIdx?` and `takeWhile` helpers -/

theorem findIdx?_cons_eq {p : Char → Bool} {a : Char} {l : List Char} :
    (a :: l).findIdx? p = if p a then some 0 else (l.findIdx? p).map (· + 1) := by
  simp [List.findIdx?]

theorem findIdx?_first {p : Char → Bool} {X : List Char} {y : Char}
    {R : List Char} (hX : ∀ a ∈ X, p a = false) (hy : p y = true) :
    (X ++ y :: R).findIdx? p = some X.length := by
  induction X with
  | nil => rw [List.nil_append, findIdx?_cons_eq, if_pos hy]; rfl
  | cons a X' ih =>
    have ha : p a = false := hX a (by simp)
    rw [List.cons_append, findIdx?_cons_eq, if_neg (by simp [ha]),
      ih (fun b hb => hX b (by simp [hb]))]
    simp

theorem findIdx?_some_spec {p : Char → Bool} {l : List Char} {j : Nat}
    (h : l.findIdx? p = some j) :
    (∃ c, l[j]? = some c ∧ p c = true) ∧
      ∀ i < j, ∀ c, l[i]? = some c → p c = false := by
  induction l generalizing j with
  | nil => simp [List.findIdx?] at h
  | cons a l' ih =>
    rw [findIdx?_cons_eq] at h
    split at h
    · next ha =>
      simp only [Option.some.injEq] at h
      subst h
      exact ⟨⟨a, by simp, ha⟩, by omega⟩
    · next ha =>
      obtain ⟨j', hj', rfl⟩ : ∃ j', l'.findIdx? p = some j' ∧ j' + 1 = j := by
        cases hf : l'.findIdx? p <;> rw [hf] at h <;> simp_all
      obtain ⟨⟨c, hc, hpc⟩, hlt⟩ := ih hj'
      refine ⟨⟨c, by simpa using hc, hpc⟩, ?_⟩
      intro i hi cc hcc
      cases i with
      | zero =>
        simp only [List.getElem?_cons_zero, Option.some.injEq] at hcc
        subst hcc
        simpa using ha
      | succ i' => exact hlt i' (by omega) cc (by simpa using hcc)

theorem takeWhile_append_exact {p : Char → Bool} {X : List Char} {y : Char}
    {R : List Char} (hX : ∀ a ∈ X, p a = true) (hy : p y = false) :
    (X ++ y :: R).takeWhile p = X := by
  induction X with
  | nil => simp [List.takeWhile_cons, hy]
  | cons a X' ih =>
    have ha : p a = true := hX a (by simp)
    simp [List.takeWhile_cons, ha, ih (fun b hb => hX b (by simp [hb]))]

theorem takeWhile_mem_spec {p : Char → Bool} {l : List Char} :
    ∀ k < (l.takeWhile p).length, ∃ c, l[k]? = some c ∧ p c = true := by
  induction l with
  | nil => simp
  | cons a l' ih =>
    intro k hk
    rw [List.takeWhile_cons] at hk
    by_cases ha : p a = true
    · simp only [ha, if_true, List.length_cons] at hk
      cases k with
      | zero => exact ⟨a, by simp, ha⟩
      | succ k' =>
        obtain ⟨c, hc, hpc⟩ := ih k' (by omega)
        exact ⟨c, by simpa using hc, hpc⟩
    · simp only [ha] at hk
      simp at hk

/-! ### `drop`/`take` bookkeeping helpers -/

theorem drop_append_le {X Z : List Char} {n : Nat} (h : n ≤ X.length) :
    (X ++ Z).drop n = X.drop n ++ Z := by
  rw [List.drop_append_eq_append_drop, show n - X.length = 0 by omega,
    List.drop_zero]

theorem drop_left_pair {X Y Z : List Char} :
    (X ++ (Y ++ Z)).drop (X.length + Y.length) = Z := by
  rw [← List.append_assoc, ← List.length_append, List.drop_left]

/-! ### The SVG locator on structured documents -/

theorem svgScan_match {c : Char} {r : List Char} {p n : Nat}
    (h : svgMatchLen (c :: r) = some n) :
    svgScan (c :: r) p = (p, p + n) :: svgScan ((c :: r).drop n) (p + n) := by
  rw [svgScan]
  split
  next n' h' =>
    rw [h] at h'
    simp only [Option.some.injEq] at h'
    subst h'
    rfl
  next h' =>
    rw [h] at h'
    exact absurd h' (by simp)

theorem svgScan_nomatch {c : Char} {r : List Char} {p : Nat}
    (h : svgMatchLen (c :: r) = none) :
    svgScan (c :: r) p = svgScan r (p + 1) := by
  rw [svgScan]
  split
  next n' h' =>
    rw [h] at h'
    exact absurd h' (by simp)
  next h' => rfl

theorem svgMatchLen_none_of_no_open {t : List Char}
    (h : ¬ occAt lc litOpen t 0) : svgMatchLen t = none := by
  have hm : matchesCI litOpen t = false := by
    rw [← Bool.not_eq_true]
    exact fun hb => h (matchesCI_iff.mp hb)
  unfold svgMatchLen svgOpenLen
  simp [hm]

theorem svgScan_empty_of_noOcc {t : List Char} {p : Nat}
    (h : noOcc lc litOpen t) : svgScan t p = [] := by
  induction t generalizing p with
  | nil => rw [svgScan]
  | cons c r ih =>
    rw [svgScan_nomatch (svgMatchLen_none_of_no_open (h 0 (by simp)))]
    exact ih (fun j hj hocc =>
      h (j + 1) (by simp; omega) (occAt_cons_succ.mpr hocc))

theorem svgScan_clean_front {X rest : List Char} {p : Nat}
    (h : ∀ i < X.length, ¬ occAt lc litOpen (X ++ rest) i) :
    svgScan (X ++ rest) p = svgScan rest (p + X.length) := by
  induction X generalizing p with
  | nil => simp
  | cons c X' ih =>
    have h0 : svgMatchLen (c :: (X' ++ rest)) = none := by
      apply svgMatchLen_none_of_no_open
      have := h 0 (by simp)
      simpa using this
    rw [List.cons_append, svgScan_nomatch h0,
      ih (fun i hi hocc => h (i + 1) (by simp; omega)
        (by rw [List.cons_append]; exact occAt_cons_succ.mpr hocc))]
    congr 1
    simp
    omega

theorem svgMatchLen_wf {s rest : List Char} (h : IsWfSvg s) :
    svgMatchLen (s ++ rest) = some s.length := by
  obtain ⟨o, c, attrs, body, cl, hs, ho, hc, hattrs, hcl, hmin⟩ := h
  have ho4 : o.length = 4 := by simpa using congrArg List.length ho
  have hcl6 : cl.length = 6 := by simpa using congrArg List.length hcl
  have ht : s ++ rest = o ++ (c :: (attrs ++ ('>' :: (body ++ (cl ++ rest))))) := by
    rw [hs]
    simp
  have hopen : matchesCI litOpen (s ++ rest) = true := by
    rw [matchesCI_iff]
    unfold occAt
    rw [List.drop_zero, ht, show litOpen.length = o.length from by rw [ho4]; decide,
      List.take_left]
    exact ho
  have hdrop4 : (s ++ rest).drop 4 = c :: (attrs ++ ('>' :: (body ++ (cl ++ rest)))) := by
    rw [ht, ← ho4, List.drop_left]
  have hfind : (attrs ++ ('>' :: (body ++ (cl ++ rest)))).findIdx? (· == '>')
      = some attrs.length :=
    findIdx?_first hattrs (by decide)
  have hopenlen : svgOpenLen (s ++ rest) = some (6 + attrs.length) := by
    simp only [svgOpenLen, hopen, if_true, hdrop4, hc, hfind, Option.map_some']
  have ht2 : s ++ rest =
      (o ++ ((c :: attrs) ++ ['>'])) ++ (body ++ (cl ++ rest)) := by
    rw [ht]
    simp
  have hfl : (o ++ ((c :: attrs) ++ ['>'])).length = 6 + attrs.length := by
    simp only [List.length_append, List.length_cons, List.length_nil, ho4]
    omega
  have hdropm : (s ++ rest).drop (6 + attrs.length) = body ++ (cl ++ rest) := by
    rw [ht2, ← hfl, List.drop_left]
  have hocc_at : occAt lc litClose (body ++ (cl ++ rest)) body.length := by
    rw [occAt_append_right (le_refl body.length), Nat.sub_self]
    unfold occAt
    rw [List.drop_zero, show litClose.length = cl.length from by rw [hcl6]; decide,
      List.take_left]
    exact hcl
  have hnone_before : ∀ j < body.length,
      ¬ occAt lc litClose (body ++ (cl ++ rest)) j := by
    intro j hj hocc
    refine hmin j hj ?_
    rw [← List.append_assoc] at hocc
    rw [occAt_append_left (by
      simp only [List.length_append, hcl6, show litClose.length = 6 from by decide]
      omega)] at hocc
    exact hocc
  have hfindocc : findOccCI litClose ((s ++ rest).drop (6 + attrs.length))
      = some body.length := by
    rw [hdropm]
    exact findOccCI_eq_some hocc_at hnone_before
  have hslen : s.length = 6 + attrs.length + body.length + 6 := by
    rw [hs]
    simp only [List.length_append, List.length_cons, ho4, hcl6]
    omega
  simp only [svgMatchLen, hopenlen, hfindocc, hslen]

theorem wf_head_lt {s : List Char} (h : IsWfSvg s) :
    (s[0]?).map lc = some '<' ∧ s ≠ [] := by
  obtain ⟨o, c, attrs, body, cl, hs, ho, -⟩ := h
  have ho4 : o.length = 4 := by simpa using congrArg List.length ho
  obtain ⟨o0, o', rfl⟩ : ∃ o0 o', o = o0 :: o' := by
    cases o with
    | nil => simp at ho4
    | cons o0 o' => exact ⟨o0, o', rfl⟩
  have hlc : lc o0 = '<' := by
    have := congrArg (fun l => l[0]?) ho
    simpa [litOpen, show ("<svg".toList)[0]? = some '<' from by decide] using this
  subst hs
  refine ⟨?_, by simp⟩
  simp [hlc]

theorem no_open_in_gap {g W : List Char} (hgo : noOcc lc litOpen g)
    (hW : (W[0]?).map lc = some '<') :
    ∀ i < g.length, ¬ occAt lc litOpen (g ++ W) i := by
  intro i hi hocc
  by_cases hfit : i + litOpen.length ≤ g.length
  · exact hgo i hi ((occAt_append_left hfit).mp hocc)
  · have hstr := occAt_straddle hocc hi (by omega)
    rw [hW] at hstr
    have hk1 : 0 < g.length - i := by omega
    have hk2 : g.length - i < litOpen.length := by
      have := occAt_le (by decide) hocc
      simp only [List.length_append] at this
      omega
    revert hstr
    have : ∀ k < litOpen.length, 0 < k →
        some '<' ≠ (litOpen[k]?).map lc := by decide
    exact this _ hk2 hk1

theorem svgScan_wf_front {s rest : List Char} {p : Nat} (h : IsWfSvg s) :
    svgScan (s ++ rest) p = (p, p + s.length) :: svgScan rest (p + s.length) := by
  have hm := @svgMatchLen_wf s rest h
  have hne := (wf_head_lt h).2
  obtain ⟨a, s', rfl⟩ : ∃ a s', s = a :: s' := by
    cases s with
    | nil => exact absurd rfl hne
    | cons a s' => exact ⟨a, s', rfl⟩
  rw [List.cons_append] at hm ⊢
  rw [svgScan_match hm, ← List.cons_append, List.drop_left]

/-- The locator, on a document assembled from locator-inert gaps and
well-formed blocks, reports exactly the block spans. -/
theorem svgScan_asm {L : List (List Char × List Char)} {tail : List Char}
    {p : Nat}
    (hg : ∀ gb ∈ L, noOcc lc litOpen gb.1 ∧ IsWfSvg gb.2)
    (htail : noOcc lc litOpen tail) :
    svgScan (asmSeg L tail) p = spansOf L p := by
  induction L generalizing p with
  | nil => exact svgScan_empty_of_noOcc htail
  | cons gb r ih =>
    obtain ⟨g, b⟩ := gb
    obtain ⟨hgo, hwf⟩ := hg (g, b) (by simp)
    have hW : ((b ++ asmSeg r tail)[0]?).map lc = some '<' := by
      obtain ⟨hb0, hbne⟩ := wf_head_lt hwf
      rwa [List.getElem?_append, if_pos (by
        cases b
        · exact absurd rfl hbne
        · simp)]
    have hasm : asmSeg ((g, b) :: r) tail = g ++ (b ++ asmSeg r tail) := by
      simp [asmSeg]
    rw [hasm, svgScan_clean_front (no_open_in_gap hgo hW), svgScan_wf_front hwf,
      ih (fun gb hgb => hg gb (by simp [hgb])), spansOf]

/-! ### Soundness of the locator: every reported span is a well-formed
block at the reported position -/

theorem getElem?_some_split {l : List Char} {j : Nat} {a : Char}
    (h : l[j]? = some a) : j < l.length ∧ l.drop j = a :: l.drop (j + 1) := by
  have hj : j < l.length := by
    by_contra hj
    rw [List.getElem?_eq_none (by omega)] at h
    exact absurd h (by simp)
  refine ⟨hj, ?_⟩
  rw [List.drop_eq_getElem_cons hj]
  have := List.getElem?_eq_getElem hj
  rw [this] at h
  simp only [Option.some.injEq] at h
  rw [h]

theorem svgMatchLen_some_wf {t : List Char} {n : Nat}
    (h : svgMatchLen t = some n) :
    IsWfSvg (t.take n) ∧ n ≤ t.length ∧ 0 < n := by
  unfold svgMatchLen at h
  split at h
  next => exact absurd h (by simp)
  next m ho =>
  split at h
  next => exact absurd h (by simp)
  next k hf =>
  simp only [Option.some.injEq] at h
  subst h
  unfold svgOpenLen at ho
  by_cases hm : matchesCI litOpen t = true
  swap
  · rw [if_neg hm] at ho; exact absurd ho (by simp)
  rw [if_pos hm] at ho
  split at ho
  next hd => exact absurd ho (by simp)
  next c r hd =>
  by_cases hc : isPySpace c = true
  swap
  · rw [if_neg hc] at ho; exact absurd ho (by simp)
  rw [if_pos hc] at ho
  cases hj : r.findIdx? (· == '>') with
  | none => rw [hj] at ho; exact absurd ho (by simp)
  | some j =>
  rw [hj] at ho
  simp only [Option.map_some', Option.some.injEq] at ho
  -- ho : 6 + j = m
  obtain ⟨⟨gc, hgc, hpgc⟩, hbefore⟩ := findIdx?_some_spec hj
  have hgc' : gc = '>' := by simpa using hpgc
  subst hgc'
  obtain ⟨hjlt, hrdrop⟩ := getElem?_some_split hgc
  -- lengths of t
  have ht45 : 4 < t.length := by
    have := congrArg List.length hd
    simp only [List.length_drop, List.length_cons] at this
    omega
  have hrlen : r.length = t.length - 5 := by
    have := congrArg List.length hd
    simp only [List.length_drop, List.length_cons] at this
    omega
  -- the open-tag pieces
  have ho4 : (t.take 4).map lc = litOpen.map lc := by
    have := matchesCI_iff.mp hm
    unfold occAt at this
    rw [List.drop_zero] at this
    rwa [show litOpen.length = 4 from by decide] at this
  have hattrs : ∀ a ∈ r.take j, (a == '>') = false := by
    intro a ha
    obtain ⟨i, hi⟩ := List.mem_iff_getElem?.mp ha
    rw [List.getElem?_take] at hi
    split at hi
    · exact hbefore i (by assumption) a hi
    · exact absurd hi (by simp)
  -- r splits at the '>'
  have hr : r = r.take j ++ ('>' :: r.drop (j + 1)) := by
    conv_lhs => rw [← List.take_append_drop j r]
    rw [hrdrop]
  -- t.drop m in terms of r
  have ht5 : t.drop 5 = r := by
    have : t.drop 5 = (t.drop 4).drop 1 := by
      rw [List.drop_drop]
    rw [this, hd]
    rfl
  have hdm : t.drop m = r.drop (j + 1) := by
    rw [← ho, show (6 + j : Nat) = 5 + (j + 1) from by omega, ← List.drop_drop, ht5]
  -- the closing-marker pieces
  obtain ⟨hocc, hbef⟩ := findOccCI_some hf
  have hk6 : k + 6 ≤ (t.drop m).length := by
    have := occAt_le (show litClose ≠ [] from by decide) hocc
    rwa [show litClose.length = 6 from by decide] at this
  set w := t.drop m with hw
  set body := w.take k with hbody
  set cl := (w.drop k).take 6 with hclw
  set wrest := (w.drop k).drop 6 with hwrest
  have hwlen : w.length = t.length - m := by
    rw [hw, List.length_drop]
  have hwsplit : w = body ++ (cl ++ wrest) := by
    rw [hbody, hclw, hwrest, List.take_append_drop, List.take_append_drop]
  have hcl : cl.map lc = litClose.map lc := by
    have := hocc
    unfold occAt at this
    rwa [show litClose.length = 6 from by decide] at this
  have hcl6 : cl.length = 6 := by
    have := congrArg List.length hcl
    simpa using this
  have hbodyk : body.length = k := by
    rw [hbody]
    simp only [List.length_take]
    omega
  have hmin : ∀ i < body.length, ¬ occAt lc litClose (body ++ cl) i := by
    intro i hi hocc2
    refine hbef i (by omega) ?_
    have : occAt lc litClose ((body ++ cl) ++ wrest) i := by
      rw [occAt_append_left (by
        simp only [List.length_append, hcl6,
          show litClose.length = 6 from by decide]
        omega)]
      exact hocc2
    rwa [List.append_assoc, ← hwsplit] at this
  -- assemble the take
  have htsplit : t = (t.take 4) ++ (c :: (r.take j ++ ('>' :: (body ++ cl)))) ++ wrest := by
    conv_lhs => rw [← List.take_append_drop 4 t, hd]
    conv_lhs => rw [show c :: r = [c] ++ r from rfl, hr]
    rw [hdm] at hwsplit
    conv_lhs => rw [hwsplit]
    simp
  have hfrontlen : ((t.take 4) ++ (c :: (r.take j ++ ('>' :: (body ++ cl))))).length
      = m + k + 6 := by
    simp only [List.length_append, List.length_cons, List.length_take,
      hcl6, hbodyk]
    omega
  have htake : t.take (m + k + 6) = (t.take 4) ++ (c :: (r.take j ++ ('>' :: (body ++ cl)))) := by
    conv_lhs => rw [htsplit]
    rw [← hfrontlen, List.take_left]
  refine ⟨?_, ?_, by omega⟩
  · rw [htake]
    exact ⟨t.take 4, c, r.take j, body, cl, rfl, ho4, hc, hattrs, hcl, hmin⟩
  · omega

theorem svgScan_bounds {t : List Char} {p : Nat} :
    ∀ sp ∈ svgScan t p, p ≤ sp.1 ∧ sp.1 < sp.2 ∧ sp.2 - p ≤ t.length ∧
      svgMatchLen (t.drop (sp.1 - p)) = some (sp.2 - sp.1) := by
  induction t, p using svgScan.induct with
  | case1 p => simp [svgScan]
  | case2 c r p n hm ih =>
    rw [svgScan_match hm]
    intro sp hsp
    rcases List.mem_cons.mp hsp with hsp | hsp
    · subst hsp
      obtain ⟨-, hn, hpos⟩ := svgMatchLen_some_wf hm
      refine ⟨le_refl _, by omega, ?_, ?_⟩
      · rw [Nat.add_sub_cancel_left]
        exact hn
      · rw [Nat.sub_self, List.drop_zero, Nat.add_sub_cancel_left]
        exact hm
    · obtain ⟨h1, h2, h3, h4⟩ := ih sp hsp
      obtain ⟨-, hn, hpos⟩ := svgMatchLen_some_wf hm
      refine ⟨by omega, h2, ?_, ?_⟩
      · simp only [List.length_drop, List.length_cons] at h3 ⊢
        omega
      · rw [List.drop_drop] at h4
        rwa [show sp.1 - p = n + (sp.1 - (p + n)) from by omega]
  | case3 c r p hm ih =>
    rw [svgScan_nomatch hm]
    intro sp hsp
    obtain ⟨h1, h2, h3, h4⟩ := ih sp hsp
    refine ⟨by omega, h2, by simp only [List.length_cons]; omega, ?_⟩
    have hx : sp.1 - p = (sp.1 - (p + 1)) + 1 := by omega
    rw [hx, List.drop_succ_cons]
    exact h4

theorem svgScan_pairwise {t : List Char} {p : Nat} :
    List.Pairwise (fun a b => a.2 ≤ b.1) (svgScan t p) := by
  induction t, p using svgScan.induct with
  | case1 p => simp [svgScan]
  | case2 c r p n hm ih =>
    rw [svgScan_match hm]
    refine List.pairwise_cons.mpr ⟨?_, ih⟩
    intro sp hsp
    exact (svgScan_bounds sp hsp).1
  | case3 c r p hm ih =>
    rw [svgScan_nomatch hm]
    exact ih

/-! ### The extraction loop on structured documents -/

theorem take_front_pair {X Y Z : List Char} :
    (X ++ (Y ++ Z)).take (X.length + Y.length) = X ++ Y := by
  rw [← List.append_assoc, ← List.length_append, List.take_left]

theorem extractLoop_asm (cc : Nat) (D tail : List Char) :
    ∀ (L : List (List Char × List Char)) (p k : Nat) (Q : List Char),
      (∃ P : List Char, D = P ++ asmSeg L tail ∧ P.length = p) →
      extractLoop cc D (spansOf L p) k (Q ++ asmSeg L tail)
          ((Q.length : Int) - (p : Int)) =
        (Q ++ asmPB (mkPhData cc D L p k) tail, mkRecords cc D L p k) := by
  intro L
  induction L with
  | nil =>
    intro p k Q _
    simp [spansOf, extractLoop, asmSeg, asmPB, mkPhData, mkRecords]
  | cons gb r ih =>
    obtain ⟨g, b⟩ := gb
    intro p k Q hP
    obtain ⟨P, hD, hPlen⟩ := hP
    have hasm : asmSeg ((g, b) :: r) tail = g ++ (b ++ asmSeg r tail) := by
      simp [asmSeg]
    rw [hasm] at hD
    -- the content slice is the block itself
    have hdropS : D.drop (p + g.length) = b ++ asmSeg r tail := by
      rw [hD, ← hPlen, ← List.length_append, ← List.append_assoc, List.drop_left]
    have hcontent : (D.drop (p + g.length)).take
        (p + g.length + b.length - (p + g.length)) = b := by
      rw [hdropS, show p + g.length + b.length - (p + g.length) = b.length from by
        omega, List.take_left]
    -- adjusted positions
    have hadjS : ((((p + g.length : Nat)) : Int)
        + ((Q.length : Int) - (p : Int))).toNat = Q.length + g.length := by
      omega
    have hadjE : ((((p + g.length + b.length : Nat)) : Int)
        + ((Q.length : Int) - (p : Int))).toNat
        = Q.length + g.length + b.length := by
      omega
    -- splicing the working document
    have htake : (Q ++ (g ++ (b ++ asmSeg r tail))).take (Q.length + g.length)
        = Q ++ g := take_front_pair
    have hdrop : (Q ++ (g ++ (b ++ asmSeg r tail))).drop
        (Q.length + g.length + b.length) = asmSeg r tail := by
      rw [show Q.length + g.length + b.length = (Q ++ g).length + b.length from by
        simp, show Q ++ (g ++ (b ++ asmSeg r tail))
          = (Q ++ g) ++ (b ++ asmSeg r tail) from by simp]
      exact drop_left_pair
    -- unfold one loop step
    rw [hasm]
    simp only [spansOf, extractLoop, hcontent, hadjS, hadjE, htake, hdrop]
    have hrec := ih (p + g.length + b.length) (k + 1)
      ((Q ++ g) ++ create_placeholder
        (generate_svg_id b k)
        (extract_context cc D (p + g.length) (p + g.length + b.length)).1
        (extract_context cc D (p + g.length) (p + g.length + b.length)).2)
      ⟨P ++ (g ++ b), by
        constructor
        · rw [hD]
          simp
        · simp only [List.length_append]
          omega⟩
    have hoff : ((Q.length : Int) - (p : Int))
          + ((create_placeholder (generate_svg_id b k)
              (extract_context cc D (p + g.length) (p + g.length + b.length)).1
              (extract_context cc D (p + g.length) (p + g.length + b.length)).2).length : Int)
          - (b.length : Int)
        = (((Q ++ g) ++ create_placeholder (generate_svg_id b k)
              (extract_context cc D (p + g.length) (p + g.length + b.length)).1
              (extract_context cc D (p + g.length) (p + g.length + b.length)).2).length : Int)
          - ((p + g.length + b.length : Nat) : Int) := by
      simp only [List.length_append]
      omega
    rw [show (Q ++ g) ++ create_placeholder (generate_svg_id b k)
          (extract_context cc D (p + g.length) (p + g.length + b.length)).1
          (extract_context cc D (p + g.length) (p + g.length + b.length)).2
          ++ asmSeg r tail
        = ((Q ++ g) ++ create_placeholder (generate_svg_id b k)
          (extract_context cc D (p + g.length) (p + g.length + b.length)).1
          (extract_context cc D (p + g.length) (p + g.length + b.length)).2)
          ++ asmSeg r tail from by simp, hoff, hrec]
    simp only [mkPhData, mkRecords, asmPB, Prod.mk.injEq]
    constructor
    · simp
    · trivial

/-- `extract_svgs` on a document assembled from locator-inert gaps and
well-formed blocks: every block is replaced by its placeholder and
recorded. -/
theorem extract_svgs_asm {cc : Nat} {L : List (List Char × List Char)}
    {tail : List Char}
    (hg : ∀ gb ∈ L, noOcc lc litOpen gb.1 ∧ IsWfSvg gb.2)
    (htail : noOcc lc litOpen tail) :
    extract_svgs cc (asmSeg L tail) =
      (asmPB (mkPhData cc (asmSeg L tail) L 0 0) tail,
       mkRecords cc (asmSeg L tail) L 0 0) := by
  unfold extract_svgs
  rw [svgScan_asm hg htail]
  have := extractLoop_asm cc (asmSeg L tail) tail L 0 0 [] ⟨[], by simp, rfl⟩
  simpa using this

/-! ### More occurrence tools for the placeholder decoder -/

theorem occAt_straddle_take {f : Char → Char} {pat X Y : List Char} {i : Nat}
    (h : occAt f pat (X ++ Y) i) (h1 : i < X.length)
    (h2 : X.length < i + pat.length) :
    (X.drop i).map f = (pat.take (X.length - i)).map f := by
  apply List.ext_getElem?
  intro j
  simp only [List.getElem?_map, List.getElem?_drop, List.getElem?_take]
  by_cases hj : j < X.length - i
  · rw [if_pos hj]
    have hXj : X[i + j]? = (X ++ Y)[i + j]? := by
      rw [List.getElem?_append, if_pos (by omega)]
    rw [hXj]
    exact occAt_get h j (by omega)
  · rw [if_neg hj, List.getElem?_eq_none (by omega)]

/-- Occurrence-freeness of an append when the tail of the left part cannot
end with a proper front piece of the pattern. -/
theorem noOcc_append_tail {f : Char → Char} {pat X Y : List Char}
    (hp : pat ≠ []) (hX : noOcc f pat X) (hY : noOcc f pat Y)
    (ht : ∀ k < pat.length, 0 < k →
      (X.drop (X.length - k)).map f ≠ (pat.take k).map f) :
    noOcc f pat (X ++ Y) := by
  refine noOcc_append hp hX hY ?_
  intro i hi hover hocc
  have := occAt_straddle_take hocc hi hover
  exact ht (X.length - i) (by
    have := occAt_le hp hocc
    simp only [List.length_append] at this
    omega) (by omega)
    (by rwa [show X.length - (X.length - i) = i from by omega])

/-- A string none of whose characters can be the head of `pat` is free of
occurrences of `pat`. -/
theorem noOcc_of_no_head {f : Char → Char} {pat l : List Char}
    (hp : pat ≠ [])
    (h : ∀ i < l.length, (l[i]?).map f ≠ (pat[0]?).map f) :
    noOcc f pat l := by
  intro i hi hocc
  have hlen : 0 < pat.length := List.length_pos.mpr hp
  have := occAt_get hocc 0 hlen
  rw [Nat.add_zero] at this
  exact h i hi this

theorem noOcc_nil {f : Char → Char} {pat : List Char} : noOcc f pat [] := by
  intro i hi
  simp at hi

/-! ### Parts extracted from a successful marker match -/

theorem startMarker_some_parts {t : List Char} {n : Nat} {sid : List Char}
    (h : startMarker t = some (n, sid)) :
    matchesLit litBang t = true ∧
      matchesLit litStart (t.drop (4 + wsRun (t.drop 4))) = true := by
  unfold startMarker at h
  split_ifs at h <;> simp_all

theorem endMarker_some_parts {sid t : List Char} {m : Nat}
    (h : endMarker sid t = some m) :
    matchesLit litBang t = true ∧
      matchesLit litEnd (t.drop (4 + wsRun (t.drop 4))) = true := by
  unfold endMarker at h
  split_ifs at h <;> simp_all

/-- Inside a region free of the literal `SVG_PLACEHOLDER` and followed by
`<` (or nothing), no text of the form `<!--`, whitespace, then a literal
starting with `SVG_PLACEHOLDER` can begin. -/
theorem marker_occ_impossible {mid Z lit : List Char} {j : Nat}
    (hlit : ∃ Q, lit = litPH ++ Q)
    (hmid : noOcc (fun c => c) litPH mid)
    (hZ : Z[0]? = none ∨ Z[0]? = some '<')
    (hj : j < mid.length)
    (hbang : matchesLit litBang ((mid ++ Z).drop j) = true)
    (hlitm : matchesLit lit (((mid ++ Z).drop j).drop
      (4 + wsRun (((mid ++ Z).drop j).drop 4))) = true) : False := by
  obtain ⟨Q, rfl⟩ := hlit
  set w := wsRun (((mid ++ Z).drop j).drop 4) with hwdef
  have h15 : litPH.length = 15 := by decide
  have h4 : litBang.length = 4 := by decide
  -- occurrence of the long literal, hence of litPH, at absolute j + (4 + w)
  have hoccL : occAt (fun c => c) (litPH ++ Q) (mid ++ Z) (j + (4 + w)) := by
    have h1 := matchesLit_iff.mp hlitm
    rw [occAt_drop, occAt_drop] at h1
    simpa using h1
  have hocc : occAt (fun c => c) litPH (mid ++ Z) (j + (4 + w)) :=
    occAt_front hoccL
  have hZchar : ((mid ++ Z)[mid.length]?) = Z[0]? := by
    rw [List.getElem?_append_right (le_refl _), Nat.sub_self]
  -- occurrence of `<!--` at j
  have hoccB : occAt (fun c => c) litBang (mid ++ Z) j := by
    have h1 := matchesLit_iff.mp hbang
    rw [occAt_drop] at h1
    simpa using h1
  -- whitespace characters of the run
  have hws : ∀ k < w, ∃ c, ((mid ++ Z)[j + 4 + k]?) = some c ∧
      isPySpace c = true := by
    intro k hk
    obtain ⟨c, hc, hpc⟩ := takeWhile_mem_spec k (by rwa [hwdef] at hk)
    refine ⟨c, ?_, hpc⟩
    rwa [List.getElem?_drop, List.getElem?_drop,
      show j + (4 + k) = j + 4 + k from by omega] at hc
  set P := j + (4 + w) with hPdef
  by_cases hfit : P + litPH.length ≤ mid.length
  · exact hmid P (by omega) ((occAt_append_left hfit).mp hocc)
  by_cases hstrad : P < mid.length
  · -- the occurrence straddles the boundary
    have := occAt_straddle hocc hstrad (by omega)
    have hk2 : mid.length - P < litPH.length := by omega
    rcases hZ with hZ | hZ <;> rw [hZ] at this
    · rw [List.getElem?_eq_getElem (by omega)] at this
      simp at this
    · have hk1 : 0 < mid.length - P := by omega
      revert this
      have hd : ∀ k < litPH.length, 0 < k →
          (some '<').map (fun c => c) ≠ (litPH[k]?).map (fun c => c) := by decide
      exact fun hcon => hd _ hk2 hk1 hcon
  · -- the occurrence would start at or past the boundary
    have hPge : mid.length ≤ P := by omega
    by_cases hb4 : j + 4 ≤ mid.length
    · by_cases hPeq : P = mid.length
      · -- litPH would start exactly at the head of Z
        have hZ0 : occAt (fun c => c) litPH Z 0 := by
          have hocc' := (occAt_append_right (by omega)).mp hocc
          rwa [show P - mid.length = 0 from by omega] at hocc'
        have hS := occAt_get hZ0 0 (by decide)
        rw [Nat.add_zero] at hS
        rcases hZ with hZ | hZ <;> rw [hZ] at hS <;> revert hS <;> decide
      · -- the whitespace run would cover the head `<` of Z
        obtain ⟨c, hc, hpc⟩ := hws (mid.length - (j + 4)) (by omega)
        rw [show j + 4 + (mid.length - (j + 4)) = mid.length from by omega,
          hZchar] at hc
        rcases hZ with hZ | hZ <;> rw [hZ] at hc
        · exact absurd hc (by simp)
        · simp only [Option.some.injEq] at hc
          subst hc
          revert hpc
          decide
    · -- `<!--` itself would straddle the boundary
      have := occAt_straddle hoccB (by omega) (by omega)
      have hk2 : mid.length - j < litBang.length := by omega
      rcases hZ with hZ | hZ <;> rw [hZ] at this
      · rw [List.getElem?_eq_getElem (by omega)] at this
        simp at this
      · have hk1 : 0 < mid.length - j := by omega
        revert this
        have hd : ∀ k < litBang.length, 0 < k →
            (some '<').map (fun c => c) ≠ (litBang[k]?).map (fun c => c) := by
          decide
        exact fun hcon => hd _ hk2 hk1 hcon

theorem placeholderMatch_none_of_clean {mid Z : List Char}
    (hmid : noOcc (fun c => c) litPH mid)
    (hZ : Z[0]? = none ∨ Z[0]? = some '<') :
    ∀ j < mid.length, placeholderMatch ((mid ++ Z).drop j) = none := by
  intro j hj
  cases hpm : placeholderMatch ((mid ++ Z).drop j) with
  | none => rfl
  | some v =>
    exfalso
    obtain ⟨n1, sid⟩ := v
    unfold placeholderMatch at hpm
    cases hsm : startMarker ((mid ++ Z).drop j) with
    | none => rw [hsm] at hpm; exact absurd hpm (by simp)
    | some p =>
      obtain ⟨n1', sid'⟩ := p
      obtain ⟨hbang, hlitm⟩ := startMarker_some_parts hsm
      exact marker_occ_impossible ⟨"_START:".toList, by decide⟩ hmid hZ hj
        hbang hlitm

theorem endMarker_none_of_clean {sid mid Z : List Char}
    (hmid : noOcc (fun c => c) litPH mid)
    (hZ : Z[0]? = none ∨ Z[0]? = some '<') :
    ∀ j < mid.length, endMarker sid ((mid ++ Z).drop j) = none := by
  intro j hj
  cases hpm : endMarker sid ((mid ++ Z).drop j) with
  | none => rfl
  | some m =>
    exfalso
    obtain ⟨hbang, hlitm⟩ := endMarker_some_parts hpm
    exact marker_occ_impossible ⟨"_END:".toList, by decide⟩ hmid hZ hj
      hbang hlitm

/-! ### Recognition of an emitted placeholder -/

theorem head?_append_left {X Y : List Char} (h : X ≠ []) :
    (X ++ Y)[0]? = X[0]? := by
  rw [List.getElem?_append, if_pos (List.length_pos.mpr h)]

theorem wsRun_space_front {X : List Char}
    (h : ∀ a, X[0]? = some a → isPySpace a = false) :
    wsRun (' ' :: X) = 1 := by
  unfold wsRun
  rw [List.takeWhile_cons, if_pos (by decide)]
  cases X with
  | nil => rfl
  | cons a X' =>
    rw [List.takeWhile_cons, if_neg (by simp [h a (by simp)])]
    rfl

theorem sid_isEmpty_false {sid : List Char} (hne : sid ≠ []) :
    sid.isEmpty = false := by
  cases sid with
  | nil => exact absurd rfl hne
  | cons a l => rfl

theorem noOcc_litPH_of_class {sid : List Char}
    (hcls : ∀ c ∈ sid, classChar c = true) :
    noOcc (fun c => c) litPH sid := by
  refine noOcc_of_no_head (by decide) ?_
  intro i hi
  cases hg : sid[i]? with
  | none => simp [show litPH[0]? = some 'S' from by decide]
  | some c =>
    have hc : c ∈ sid := by
      obtain ⟨hlt, heq⟩ := List.getElem?_eq_some.mp hg
      exact heq ▸ List.getElem_mem hlt
    have := hcls c hc
    simp only [show litPH[0]? = some 'S' from by decide, Option.map_some']
    intro hcon
    simp only [Option.some.injEq] at hcon
    rw [hcon] at this
    exact absurd this (by decide)

theorem findEnd_eq {sid l : List Char} {j m : Nat}
    (h0 : ∀ j' < j, endMarker sid (l.drop j') = none)
    (h1 : endMarker sid (l.drop j) = some m) :
    findEnd sid l = some (j + m) := by
  induction l generalizing j with
  | nil =>
    rw [List.drop_nil] at h1
    unfold endMarker at h1
    rw [if_neg (by decide)] at h1
    exact absurd h1 (by simp)
  | cons c r ih =>
    cases j with
    | zero =>
      rw [List.drop_zero] at h1
      unfold findEnd
      rw [h1]
      simp
    | succ j' =>
      have hz : endMarker sid (c :: r) = none := by
        have := h0 0 (by omega)
        rwa [List.drop_zero] at this
      unfold findEnd
      rw [hz]
      rw [ih (j := j') (fun i hi => by
          have := h0 (i + 1) (by omega)
          rwa [List.drop_succ_cons] at this)
        (by rwa [List.drop_succ_cons] at h1)]
      simp
      omega

/-- The start marker matches at the head of any text of the canonical
emitted shape `<!-- SVG_PLACEHOLDER_START:sid -->…`. -/
theorem startMarker_canonical {sid Z : List Char}
    (hne : sid ≠ []) (hcls : ∀ c ∈ sid, classChar c = true) :
    startMarker (litBang ++ (' ' :: (litStart ++ (sid ++ (' ' :: (litArrow ++ Z))))))
      = some (31 + sid.length, sid) := by
  set T := litBang ++ (' ' :: (litStart ++ (sid ++ (' ' :: (litArrow ++ Z)))))
    with hT
  have hd4 : T.drop 4 = ' ' :: (litStart ++ (sid ++ (' ' :: (litArrow ++ Z)))) := by
    rw [hT, show (4 : Nat) = litBang.length from by decide, List.drop_left]
  have hw1 : wsRun (T.drop 4) = 1 := by
    rw [hd4]
    refine wsRun_space_front ?_
    intro a ha
    rw [head?_append_left (by decide),
      show litStart[0]? = some 'S' from by decide] at ha
    simp only [Option.some.injEq] at ha
    subst ha
    decide
  have hd45 : T.drop (4 + 1) = litStart ++ (sid ++ (' ' :: (litArrow ++ Z))) := by
    rw [← List.drop_drop, hd4, List.drop_succ_cons, List.drop_zero]
  have hidc : (sid ++ (' ' :: (litArrow ++ Z))).takeWhile classChar = sid :=
    takeWhile_append_exact hcls (by decide)
  have hw2 : wsRun (' ' :: (litArrow ++ Z)) = 1 := by
    refine wsRun_space_front ?_
    intro a ha
    rw [head?_append_left (by decide),
      show litArrow[0]? = some '-' from by decide] at ha
    simp only [Option.some.injEq] at ha
    subst ha
    decide
  unfold startMarker
  rw [if_pos (by rw [hT]; exact matchesLit_of_front), hw1, hd45,
    if_pos matchesLit_of_front, List.drop_left, hidc,
    if_neg (by simp [sid_isEmpty_false hne]), drop_left_pair, hw2,
    List.drop_one, List.tail_cons, if_pos matchesLit_of_front,
    show (4 + 1 + litStart.length + sid.length + 1 + 3 : Nat)
      = 31 + sid.length from by
        rw [show litStart.length = 22 from by decide]
        omega]

/-- The end marker matches at the head of any text of the canonical emitted
shape `<!-- SVG_PLACEHOLDER_END:sid -->…`. -/
theorem endMarker_canonical {sid Z : List Char} :
    endMarker sid (litBang ++ (' ' :: (litEnd ++ (sid ++ (' ' :: (litArrow ++ Z))))))
      = some (29 + sid.length) := by
  set T := litBang ++ (' ' :: (litEnd ++ (sid ++ (' ' :: (litArrow ++ Z)))))
    with hT
  have hd4 : T.drop 4 = ' ' :: (litEnd ++ (sid ++ (' ' :: (litArrow ++ Z)))) := by
    rw [hT, show (4 : Nat) = litBang.length from by decide, List.drop_left]
  have hw1 : wsRun (T.drop 4) = 1 := by
    rw [hd4]
    refine wsRun_space_front ?_
    intro a ha
    rw [head?_append_left (by decide),
      show litEnd[0]? = some 'S' from by decide] at ha
    simp only [Option.some.injEq] at ha
    subst ha
    decide
  have hd45 : T.drop (4 + 1) = litEnd ++ (sid ++ (' ' :: (litArrow ++ Z))) := by
    rw [← List.drop_drop, hd4, List.drop_succ_cons, List.drop_zero]
  have hw2 : wsRun (' ' :: (litArrow ++ Z)) = 1 := by
    refine wsRun_space_front ?_
    intro a ha
    rw [head?_append_left (by decide),
      show litArrow[0]? = some '-' from by decide] at ha
    simp only [Option.some.injEq] at ha
    subst ha
    decide
  unfold endMarker
  rw [if_pos (by rw [hT]; exact matchesLit_of_front), hw1, hd45,
    if_pos matchesLit_of_front, List.drop_left,
    if_pos matchesLit_of_front, List.drop_left, hw2,
    List.drop_one, List.tail_cons, if_pos matchesLit_of_front,
    show (4 + 1 + litEnd.length + sid.length + 1 + 3 : Nat)
      = 29 + sid.length from by
        rw [show litEnd.length = 20 from by decide]
        omega]

/-- The decoder pattern, applied at the head of an emitted placeholder,
matches exactly the whole placeholder and captures its identifier —
provided the identifier is a nonempty `[a-f0-9_]` string and the truncated
context annotations do not contain the literal `SVG_PLACEHOLDER`. -/
theorem placeholderMatch_create {sid cb ca rest : List Char}
    (hne : sid ≠ []) (hcls : ∀ c ∈ sid, classChar c = true)
    (hcb : noOcc (fun c => c) litPH (cb.take 100))
    (hca : noOcc (fun c => c) litPH (ca.take 100)) :
    placeholderMatch (create_placeholder sid cb ca ++ rest) =
      some ((create_placeholder sid cb ca).length, sid) := by
  have hp15 : litPH ≠ [] := by decide
  -- canonical decomposition of the emitted text
  have hsplit : create_placeholder sid cb ca ++ rest =
      litBang ++ (' ' :: (litStart ++ (sid ++ (' ' :: (litArrow ++
        ("\n<!-- CONTEXT_BEFORE: ".toList ++ (cb.take 100 ++ (phC ++
          (ca.take 100 ++ (phD ++ (sid ++ ("\"></span>\n".toList ++
            (litBang ++ (' ' :: (litEnd ++ (sid ++ (' ' :: (litArrow ++
              rest)))))))))))))))))) := by
    unfold create_placeholder
    rw [show phA = litBang ++ (' ' :: litStart) from by decide,
      show phB = ' ' :: (litArrow ++ "\n<!-- CONTEXT_BEFORE: ".toList) from by
        decide,
      show phE = "\"></span>\n".toList ++ (litBang ++ (' ' :: litEnd)) from by
        decide,
      show phF = ' ' :: litArrow from by decide]
    simp
  have hstart : startMarker (create_placeholder sid cb ca ++ rest)
      = some (31 + sid.length, sid) := by
    rw [hsplit]
    exact startMarker_canonical hne hcls
  -- the text after the start marker: annotation middle, then the end marker
  have hdropA : (create_placeholder sid cb ca ++ rest).drop (31 + sid.length)
      = ("\n<!-- CONTEXT_BEFORE: ".toList ++ (cb.take 100 ++ (phC ++
          (ca.take 100 ++ (phD ++ (sid ++ "\"></span>\n".toList))))))
        ++ (litBang ++ (' ' :: (litEnd ++ (sid ++ (' ' :: (litArrow ++
            rest)))))) := by
    rw [hsplit,
      show litBang ++ (' ' :: (litStart ++ (sid ++ (' ' :: (litArrow ++
        ("\n<!-- CONTEXT_BEFORE: ".toList ++ (cb.take 100 ++ (phC ++
          (ca.take 100 ++ (phD ++ (sid ++ ("\"></span>\n".toList ++
            (litBang ++ (' ' :: (litEnd ++ (sid ++ (' ' :: (litArrow ++
              rest))))))))))))))))))
        = (litBang ++ (' ' :: (litStart ++ (sid ++ (' ' :: litArrow)))))
          ++ (("\n<!-- CONTEXT_BEFORE: ".toList ++ (cb.take 100 ++ (phC ++
            (ca.take 100 ++ (phD ++ (sid ++ "\"></span>\n".toList))))))
          ++ (litBang ++ (' ' :: (litEnd ++ (sid ++ (' ' :: (litArrow ++
              rest))))))) from by simp,
      show 31 + sid.length
        = (litBang ++ (' ' :: (litStart ++ (sid ++ (' ' :: litArrow))))).length
        from by
          simp only [List.length_append, List.length_cons,
            show litBang.length = 4 from by decide,
            show litStart.length = 22 from by decide,
            show litArrow.length = 3 from by decide]
          omega,
      List.drop_left]
  -- the middle carries no `SVG_PLACEHOLDER`
  have hsid : noOcc (fun c => c) litPH sid := noOcc_litPH_of_class hcls
  have hn1 : noOcc (fun c => c) litPH (sid ++ "\"></span>\n".toList) := by
    refine noOcc_append_head hp15 hsid (by decide) ?_
    intro k hk hk0
    have hfact : ∀ k < litPH.length, 0 < k →
        (("\"></span>\n".toList)[0]?).map (fun c => c)
          ≠ (litPH[k]?).map (fun c => c) := by decide
    exact hfact k hk hk0
  have hn2 : noOcc (fun c => c) litPH
      (phD ++ (sid ++ "\"></span>\n".toList)) := by
    refine noOcc_append_tail hp15 (by decide) hn1 ?_
    intro k hk hk0
    have hfact : ∀ k < litPH.length, 0 < k →
        (phD.drop (phD.length - k)).map (fun c => c)
          ≠ (litPH.take k).map (fun c => c) := by decide
    exact hfact k hk hk0
  have hn3 : noOcc (fun c => c) litPH
      (ca.take 100 ++ (phD ++ (sid ++ "\"></span>\n".toList))) := by
    refine noOcc_append_head hp15 hca hn2 ?_
    intro k hk hk0
    rw [head?_append_left (by decide)]
    have hfact : ∀ k < litPH.length, 0 < k →
        (phD[0]?).map (fun c => c) ≠ (litPH[k]?).map (fun c => c) := by decide
    exact hfact k hk hk0
  have hn4 : noOcc (fun c => c) litPH
      (phC ++ (ca.take 100 ++ (phD ++ (sid ++ "\"></span>\n".toList)))) := by
    refine noOcc_append_tail hp15 (by decide) hn3 ?_
    intro k hk hk0
    have hfact : ∀ k < litPH.length, 0 < k →
        (phC.drop (phC.length - k)).map (fun c => c)
          ≠ (litPH.take k).map (fun c => c) := by decide
    exact hfact k hk hk0
  have hn5 : noOcc (fun c => c) litPH
      (cb.take 100 ++ (phC ++ (ca.take 100 ++ (phD ++
        (sid ++ "\"></span>\n".toList))))) := by
    refine noOcc_append_head hp15 hcb hn4 ?_
    intro k hk hk0
    rw [head?_append_left (by decide)]
    have hfact : ∀ k < litPH.length, 0 < k →
        (phC[0]?).map (fun c => c) ≠ (litPH[k]?).map (fun c => c) := by decide
    exact hfact k hk hk0
  have hmid : noOcc (fun c => c) litPH
      ("\n<!-- CONTEXT_BEFORE: ".toList ++ (cb.take 100 ++ (phC ++
        (ca.take 100 ++ (phD ++ (sid ++ "\"></span>\n".toList)))))) := by
    refine noOcc_append_tail hp15 (by decide) hn5 ?_
    intro k hk hk0
    have hfact : ∀ k < litPH.length, 0 < k →
        (("\n<!-- CONTEXT_BEFORE: ".toList).drop
            ("\n<!-- CONTEXT_BEFORE: ".toList.length - k)).map (fun c => c)
          ≠ (litPH.take k).map (fun c => c) := by decide
    exact hfact k hk hk0
  -- the first end-marker match is at the real end marker
  have hEMhead : (litBang ++ (' ' :: (litEnd ++ (sid ++ (' ' :: (litArrow ++
      rest))))))[0]? = some '<' := by
    rw [head?_append_left (by decide)]
    decide
  have hFE : findEnd sid
      (("\n<!-- CONTEXT_BEFORE: ".toList ++ (cb.take 100 ++ (phC ++
          (ca.take 100 ++ (phD ++ (sid ++ "\"></span>\n".toList))))))
        ++ (litBang ++ (' ' :: (litEnd ++ (sid ++ (' ' :: (litArrow ++
            rest)))))))
      = some (("\n<!-- CONTEXT_BEFORE: ".toList ++ (cb.take 100 ++ (phC ++
          (ca.take 100 ++ (phD ++ (sid ++ "\"></span>\n".toList)))))).length
        + (29 + sid.length)) := by
    refine findEnd_eq ?_ ?_
    · exact fun j' hj' =>
        endMarker_none_of_clean hmid (Or.inr hEMhead) j' hj'
    · rw [List.drop_left]
      exact endMarker_canonical
  -- total length of the placeholder
  have hlen : (create_placeholder sid cb ca).length
      = 31 + sid.length
        + ((("\n<!-- CONTEXT_BEFORE: ".toList ++ (cb.take 100 ++ (phC ++
            (ca.take 100 ++ (phD ++ (sid ++ "\"></span>\n".toList)))))).length)
          + (29 + sid.length)) := by
    simp only [create_placeholder, List.length_append, List.length_cons,
      show phA.length = 27 from by decide,
      show phB.length = 26 from by decide,
      show phE.length = 35 from by decide,
      show phF.length = 4 from by decide,
      show ("\n<!-- CONTEXT_BEFORE: ".toList).length = 22 from by decide,
      show ("\"></span>\n".toList).length = 10 from by decide]
    omega
  simp only [placeholderMatch, hstart, hdropA, hFE, hlen]

/-! ### Restoration on structured documents -/

theorem phScan_nil {data : List SvgData} : phScan data [] = ([], []) := by
  rw [phScan]

theorem phScan_match_found {data : List SvgData} {c : Char} {r : List Char}
    {n : Nat} {idc content : List Char}
    (h : placeholderMatch (c :: r) = some (n, idc))
    (hd : dictGet data idc = some content) :
    phScan data (c :: r) = (content ++ (phScan data ((c :: r).drop n)).1,
      (phScan data ((c :: r).drop n)).2) := by
  rw [phScan]
  split
  next n' idc' h' =>
    rw [h] at h'
    simp only [Option.some.injEq, Prod.mk.injEq] at h'
    obtain ⟨rfl, rfl⟩ := h'
    rw [hd]
  next h' =>
    rw [h] at h'
    exact absurd h' (by simp)

theorem phScan_match_missing {data : List SvgData} {c : Char} {r : List Char}
    {n : Nat} {idc : List Char}
    (h : placeholderMatch (c :: r) = some (n, idc))
    (hd : dictGet data idc = none) :
    phScan data (c :: r) = ((c :: r).take n ++ (phScan data ((c :: r).drop n)).1,
      idc :: (phScan data ((c :: r).drop n)).2) := by
  rw [phScan]
  split
  next n' idc' h' =>
    rw [h] at h'
    simp only [Option.some.injEq, Prod.mk.injEq] at h'
    obtain ⟨rfl, rfl⟩ := h'
    rw [hd]
  next h' =>
    rw [h] at h'
    exact absurd h' (by simp)

theorem phScan_nomatch {data : List SvgData} {c : Char} {r : List Char}
    (h : placeholderMatch (c :: r) = none) :
    phScan data (c :: r) = (c :: (phScan data r).1, (phScan data r).2) := by
  rw [phScan]
  split
  next n' idc' h' =>
    rw [h] at h'
    exact absurd h' (by simp)
  next h' => rfl

theorem phScan_clean_front {data : List SvgData} {X rest : List Char}
    (h : ∀ i < X.length, placeholderMatch ((X ++ rest).drop i) = none) :
    phScan data (X ++ rest) = (X ++ (phScan data rest).1, (phScan data rest).2) := by
  induction X with
  | nil => simp
  | cons c X' ih =>
    have h0 : placeholderMatch (c :: (X' ++ rest)) = none := by
      have := h 0 (by simp)
      simpa using this
    rw [List.cons_append, phScan_nomatch h0,
      ih (fun i hi => by
        have := h (i + 1) (by simp; omega)
        rwa [List.cons_append, List.drop_succ_cons] at this)]
    simp

theorem phScan_clean_all {data : List SvgData} {t : List Char}
    (h : noOcc (fun c => c) litPH t) : phScan data t = (t, []) := by
  have h2 : ∀ i < t.length, placeholderMatch ((t ++ []).drop i) = none :=
    placeholderMatch_none_of_clean h (Or.inl rfl)
  have := @phScan_clean_front data t [] (by
    intro i hi
    exact h2 i hi)
  rw [List.append_nil] at this
  rw [this, phScan_nil]
  simp

theorem create_placeholder_head {sid cb ca : List Char} {X : List Char} :
    ((create_placeholder sid cb ca ++ X))[0]? = some '<' := by
  unfold create_placeholder
  rw [show phA ++ sid ++ phB ++ cb.take 100 ++ phC ++ ca.take 100
      ++ phD ++ sid ++ phE ++ sid ++ phF ++ X
    = phA ++ (sid ++ (phB ++ (cb.take 100 ++ (phC ++ (ca.take 100
      ++ (phD ++ (sid ++ (phE ++ (sid ++ (phF ++ X)))))))))) from by simp]
  rw [head?_append_left (by decide)]
  decide

/-- `PLACEHOLDER_PATTERN.sub` on a document assembled from marker-free gaps
and emitted placeholders: each placeholder is replaced by the looked-up
content when its identifier is known and kept (with a warning) otherwise. -/
theorem phScan_asm {data : List SvgData}
    {P : List (List Char × (List Char × List Char × List Char))}
    {tail : List Char}
    (hP : ∀ e ∈ P, noOcc (fun c => c) litPH e.1 ∧ e.2.1 ≠ [] ∧
      (∀ c ∈ e.2.1, classChar c = true) ∧
      noOcc (fun c => c) litPH (e.2.2.1.take 100) ∧
      noOcc (fun c => c) litPH (e.2.2.2.take 100))
    (htail : noOcc (fun c => c) litPH tail) :
    phScan data (asmPB P tail) = (expRestore data P tail, expWarn data P) := by
  induction P with
  | nil =>
    simp only [asmPB, expRestore, expWarn]
    rw [phScan_clean_all htail]
  | cons e r ih =>
    obtain ⟨g, sid, cb, ca⟩ := e
    obtain ⟨hg, hne, hcls, hcb, hca⟩ := hP (g, sid, cb, ca) (by simp)
    have hasm : asmPB ((g, sid, cb, ca) :: r) tail
        = g ++ (create_placeholder sid cb ca ++ asmPB r tail) := by
      simp [asmPB]
    have hgnone : ∀ i < g.length, placeholderMatch
        ((g ++ (create_placeholder sid cb ca ++ asmPB r tail)).drop i) = none :=
      placeholderMatch_none_of_clean hg (Or.inr create_placeholder_head)
    have hmatch : placeholderMatch
        (create_placeholder sid cb ca ++ asmPB r tail)
        = some ((create_placeholder sid cb ca).length, sid) :=
      placeholderMatch_create hne hcls hcb hca
    have hne' : create_placeholder sid cb ca ++ asmPB r tail ≠ [] := by
      intro hcon
      have := congrArg List.length hcon
      simp only [List.length_append, List.length_nil] at this
      have : (create_placeholder sid cb ca).length = 0 := by omega
      rw [create_placeholder] at this
      simp only [List.length_append, show phA.length = 27 from by decide] at this
      omega
    obtain ⟨a, s', hcons⟩ : ∃ a s', create_placeholder sid cb ca ++ asmPB r tail
        = a :: s' := by
      cases hcc : create_placeholder sid cb ca ++ asmPB r tail with
      | nil => exact absurd hcc hne'
      | cons a s' => exact ⟨a, s', rfl⟩
    have ihr := ih (fun e he => hP e (by simp [he]))
    rw [hasm, phScan_clean_front hgnone]
    cases hd : dictGet data sid with
    | some content =>
      rw [hcons] at hmatch
      rw [hcons, phScan_match_found hmatch hd, ← hcons, List.drop_left, ihr]
      simp only [expRestore, expWarn, hd]
      simp
    | none =>
      rw [hcons] at hmatch
      rw [hcons, phScan_match_missing hmatch hd, ← hcons, List.drop_left,
        List.take_left, ihr]
      simp only [expRestore, expWarn, hd]
      simp

/-! ### Identifier derivation: shape, character class, injectivity -/

theorem decVal_init {l : List Char} {a : Nat} :
    l.foldl (fun a c => 10 * a + (c.toNat - 48)) a
      = a * 10 ^ l.length + decVal l := by
  induction l generalizing a with
  | nil => simp [decVal]
  | cons c r ih =>
    rw [List.foldl_cons, ih]
    have hrhs : decVal (c :: r)
        = (10 * 0 + (c.toNat - 48)) * 10 ^ r.length + decVal r := by
      unfold decVal
      rw [List.foldl_cons]
      exact ih
    rw [hrhs]
    simp only [List.length_cons, pow_succ]
    ring

theorem decVal_digits_append {l : List Char} {d : Nat} (hd : d < 10) :
    decVal (l ++ [Char.ofNat (48 + d)]) = 10 * decVal l + d := by
  unfold decVal
  rw [List.foldl_append]
  simp only [List.foldl_cons, List.foldl_nil]
  have hch : (Char.ofNat (48 + d)).toNat = 48 + d := by
    have : ∀ d' < 10, (Char.ofNat (48 + d')).toNat = 48 + d' := by decide
    exact this d hd
  rw [hch]
  omega

theorem decVal_decDigits (n : Nat) : decVal (decDigits n) = n := by
  induction n using decDigits.induct with
  | case1 n h =>
    rw [decDigits, dif_pos h]
    unfold decVal
    simp only [List.foldl_cons, List.foldl_nil]
    have : ∀ d' < 10, (Char.ofNat (48 + d')).toNat = 48 + d' := by decide
    rw [this n h]
    omega
  | case2 n h ih =>
    rw [decDigits, dif_neg h, decVal_digits_append (by omega), ih]
    omega

theorem decVal_replicate_zero {k : Nat} {l : List Char} :
    decVal (List.replicate k '0' ++ l) = decVal l := by
  induction k with
  | zero => simp
  | succ k' ih =>
    rw [List.replicate_succ, List.cons_append]
    unfold decVal at ih ⊢
    simp only [List.foldl_cons]
    rw [show 10 * 0 + ('0'.toNat - 48) = 0 from by decide]
    exact ih

theorem pad4_decVal (n : Nat) : decVal (pad4 n) = n := by
  rw [pad4, decVal_replicate_zero, decVal_decDigits]

theorem pad4_inj {m n : Nat} (h : pad4 m = pad4 n) : m = n := by
  have := congrArg decVal h
  rwa [pad4_decVal, pad4_decVal] at this

theorem decDigits_digits (n : Nat) :
    ∀ c ∈ decDigits n, '0' ≤ c ∧ c ≤ '9' := by
  induction n using decDigits.induct with
  | case1 n h =>
    rw [decDigits, dif_pos h]
    intro c hc
    simp only [List.mem_singleton] at hc
    subst hc
    have : ∀ d < 10, '0' ≤ Char.ofNat (48 + d) ∧ Char.ofNat (48 + d) ≤ '9' := by
      decide
    exact this n h
  | case2 n h ih =>
    rw [decDigits, dif_neg h]
    intro c hc
    rcases List.mem_append.mp hc with hc | hc
    · exact ih c hc
    · simp only [List.mem_singleton] at hc
      subst hc
      have : ∀ d < 10, '0' ≤ Char.ofNat (48 + d) ∧ Char.ofNat (48 + d) ≤ '9' := by
        decide
      exact this (n % 10) (by omega)

theorem pad4_digits (n : Nat) : ∀ c ∈ pad4 n, '0' ≤ c ∧ c ≤ '9' := by
  intro c hc
  rw [pad4] at hc
  rcases List.mem_append.mp hc with hc | hc
  · have := List.eq_of_mem_replicate hc
    subst this
    exact ⟨le_refl _, by decide⟩
  · exact decDigits_digits n c hc

/-! #### The MD5 hex digest: byte bounds, length, character class -/

theorem leBytes_lt (w : Nat) : ∀ b ∈ leBytes w, b < 256 := by
  intro b hb
  unfold leBytes at hb
  simp only [List.mem_cons, List.mem_singleton, List.not_mem_nil, or_false] at hb
  rcases hb with rfl | rfl | rfl | rfl <;> exact Nat.mod_lt _ (by omega)

theorem md5Digest_lt (msg : List Nat) : ∀ b ∈ md5Digest msg, b < 256 := by
  intro b hb
  unfold md5Digest at hb
  simp only [List.mem_append] at hb
  rcases hb with ((hb | hb) | hb) | hb <;> exact leBytes_lt _ b hb

theorem md5Digest_length (msg : List Nat) : (md5Digest msg).length = 16 := by
  unfold md5Digest
  simp [leBytes]

theorem hex_flatten_length (bytes : List Nat) :
    ((bytes.map (fun b => [hexChar (b / 16), hexChar (b % 16)])).flatten).length
      = 2 * bytes.length := by
  induction bytes with
  | nil => simp
  | cons b r ih =>
    simp only [List.map_cons, List.flatten_cons, List.length_append,
      List.length_cons, List.length_nil, ih, List.length_map]
    simp [List.length_map] at ih ⊢
    omega

theorem md5hex_length (msg : List Nat) : (md5hex msg).length = 32 := by
  unfold md5hex
  rw [hex_flatten_length, md5Digest_length]

theorem hexChar_class {n : Nat} (h : n < 16) :
    classChar (hexChar n) = true ∧ ('a' ≤ hexChar n ∧ hexChar n ≤ 'f'
      ∨ '0' ≤ hexChar n ∧ hexChar n ≤ '9') := by
  have : ∀ n' < 16, classChar (hexChar n') = true ∧
      ('a' ≤ hexChar n' ∧ hexChar n' ≤ 'f'
        ∨ '0' ≤ hexChar n' ∧ hexChar n' ≤ '9') := by decide
  exact this n h

theorem md5hex_class (msg : List Nat) :
    ∀ c ∈ md5hex msg, classChar c = true ∧ c ≠ '_' := by
  intro c hc
  unfold md5hex at hc
  rw [List.mem_flatten] at hc
  obtain ⟨l, hl, hcl⟩ := hc
  rw [List.mem_map] at hl
  obtain ⟨b, hb, rfl⟩ := hl
  have hblt := md5Digest_lt msg b hb
  simp only [List.mem_cons, List.mem_singleton, List.not_mem_nil, or_false]
    at hcl
  have hcls : ∀ n' < 16, classChar (hexChar n') = true ∧ hexChar n' ≠ '_' := by
    decide
  rcases hcl with rfl | rfl
  · exact hcls (b / 16) (by omega)
  · exact hcls (b % 16) (by omega)

/-! #### `generate_svg_id` -/

theorem generate_svg_id_class {content : List Char} {index : Nat} :
    ∀ c ∈ generate_svg_id content index, classChar c = true := by
  intro c hc
  unfold generate_svg_id at hc
  rcases List.mem_append.mp hc with hc | hc
  · obtain ⟨h0, h9⟩ := pad4_digits index c hc
    unfold classChar
    simp only [Bool.or_eq_true, Bool.and_eq_true, decide_eq_true_eq]
    exact Or.inl (Or.inr ⟨h0, h9⟩)
  · simp only [List.mem_cons] at hc
    rcases hc with rfl | hc
    · decide
    · exact ((md5hex_class _ c) (List.mem_of_mem_take hc)).1

theorem generate_svg_id_ne_nil {content : List Char} {index : Nat} :
    generate_svg_id content index ≠ [] := by
  unfold generate_svg_id
  intro h
  have := congrArg List.length h
  simp at this

theorem pad4_no_underscore (n : Nat) : ∀ c ∈ pad4 n, c ≠ '_' := by
  intro c hc
  obtain ⟨h0, h9⟩ := pad4_digits n c hc
  intro hcon
  subst hcon
  revert h0 h9
  decide

theorem generate_svg_id_hash_length {content : List Char} :
    ((md5hex (utf8 content)).take 8).length = 8 := by
  rw [List.length_take, md5hex_length]
  omega

/-- Distinct sequence indices give distinct identifiers, whatever the
contents: the hash field has fixed width, so the identifiers agree only if
the zero-padded index renderings agree. -/
theorem generate_svg_id_index_inj {c1 c2 : List Char} {i1 i2 : Nat}
    (h : generate_svg_id c1 i1 = generate_svg_id c2 i2) : i1 = i2 := by
  unfold generate_svg_id at h
  have hlen : (pad4 i1).length = (pad4 i2).length := by
    have := congrArg List.length h
    simp only [List.length_append, List.length_cons,
      generate_svg_id_hash_length] at this
    omega
  have := List.append_inj h hlen
  exact pad4_inj this.1

/-! ### Whitespace handling of the context capturer -/

theorem dropWhile_head_false {p : Char → Bool} {l : List Char} {x : Char}
    (h : (l.dropWhile p)[0]? = some x) : p x = false := by
  induction l with
  | nil => simp at h
  | cons c r ih =>
    rw [List.dropWhile_cons] at h
    split at h
    · exact ih h
    · next hc =>
      simp only [List.getElem?_cons_zero, Option.some.injEq] at h
      subst h
      simpa using hc

theorem collapseWs_cons_ws {c : Char} {r : List Char} (hc : isPySpace c = true) :
    collapseWs (c :: r) = ' ' :: collapseWs (r.dropWhile isPySpace) := by
  rw [collapseWs, if_pos hc]

theorem collapseWs_cons_nws {c : Char} {r : List Char} (hc : isPySpace c = false) :
    collapseWs (c :: r) = c :: collapseWs r := by
  rw [collapseWs, if_neg (by simp [hc])]

theorem collapseWs_ne_nil {l : List Char} (h : l ≠ []) : collapseWs l ≠ [] := by
  cases l with
  | nil => exact absurd rfl h
  | cons c r =>
    by_cases hc : isPySpace c = true
    · rw [collapseWs_cons_ws hc]
      simp
    · rw [collapseWs_cons_nws (by simpa using hc)]
      simp

theorem collapseWs_length_le (l : List Char) :
    (collapseWs l).length ≤ l.length := by
  induction l using collapseWs.induct with
  | case1 => rw [collapseWs]
  | case2 c r hc ih =>
    rw [collapseWs_cons_ws hc]
    have hd := (r.dropWhile_sublist isPySpace).length_le
    simp only [List.length_cons]
    omega
  | case3 c r hc ih =>
    rw [collapseWs_cons_nws (by simpa using hc)]
    simp only [List.length_cons]
    omega

theorem collapseWs_ws_eq_space {l : List Char} :
    ∀ c ∈ collapseWs l, isPySpace c = true → c = ' ' := by
  induction l using collapseWs.induct with
  | case1 => rw [collapseWs]; simp
  | case2 c r hc ih =>
    rw [collapseWs_cons_ws hc]
    intro x hx hwx
    rcases List.mem_cons.mp hx with rfl | hx
    · rfl
    · exact ih x hx hwx
  | case3 c r hc ih =>
    rw [collapseWs_cons_nws (by simpa using hc)]
    intro x hx hwx
    rcases List.mem_cons.mp hx with rfl | hx
    · simp [hwx] at hc
    · exact ih x hx hwx

theorem collapseWs_head {l : List Char} {x : Char}
    (h : l[0]? = some x) (hx : isPySpace x = false) :
    (collapseWs l)[0]? = some x := by
  cases l with
  | nil => simp at h
  | cons c r =>
    simp only [List.getElem?_cons_zero, Option.some.injEq] at h
    subst h
    rw [collapseWs_cons_nws hx]
    simp

theorem collapseWs_no_adjacent_ws {l : List Char} :
    ∀ i a b, (collapseWs l)[i]? = some a → (collapseWs l)[i + 1]? = some b →
      isPySpace a = true → isPySpace b = true → False := by
  induction l using collapseWs.induct with
  | case1 => rw [collapseWs]; simp
  | case2 c r hc ih =>
    rw [collapseWs_cons_ws hc]
    intro i a b ha hb hwa hwb
    cases i with
    | zero =>
      simp only [List.getElem?_cons_succ, List.getElem?_cons_zero] at ha hb
      cases hdw : r.dropWhile isPySpace with
      | nil => rw [hdw, collapseWs] at hb; simp at hb
      | cons y t =>
        have hy : isPySpace y = false := dropWhile_head_false (by rw [hdw]; simp)
        rw [hdw, collapseWs_cons_nws hy] at hb
        simp only [List.getElem?_cons_zero, Option.some.injEq] at hb
        subst hb
        simp [hwb] at hy
    | succ i' =>
      simp only [List.getElem?_cons_succ] at ha hb
      exact ih i' a b ha hb hwa hwb
  | case3 c r hc ih =>
    rw [collapseWs_cons_nws (by simpa using hc)]
    intro i a b ha hb hwa hwb
    cases i with
    | zero =>
      simp only [List.getElem?_cons_zero, Option.some.injEq] at ha
      subst ha
      simp [hwa] at hc
    | succ i' =>
      simp only [List.getElem?_cons_succ] at ha hb
      exact ih i' a b ha hb hwa hwb

theorem collapseWs_last {l : List Char} :
    (∀ x, l.getLast? = some x → isPySpace x = false) →
    ∀ y, (collapseWs l).getLast? = some y → isPySpace y = false := by
  induction l using collapseWs.induct with
  | case1 =>
    intro h y hy
    rw [collapseWs] at hy
    simp at hy
  | case2 c r hc ih =>
    intro h y hy
    rw [collapseWs_cons_ws hc] at hy
    by_cases hrne : r = []
    · subst hrne
      exfalso
      exact absurd (h c rfl) (by simp [hc])
    · have hlastr : ∀ x, r.getLast? = some x → isPySpace x = false := by
        intro x hx
        refine h x ?_
        obtain ⟨r0, rr, rfl⟩ : ∃ r0 rr, r = r0 :: rr := by
          cases r with
          | nil => exact absurd rfl hrne
          | cons r0 rr => exact ⟨r0, rr, rfl⟩
        rwa [List.getLast?_cons_cons]
      by_cases hdwnil : r.dropWhile isPySpace = []
      · exfalso
        have hall := List.dropWhile_eq_nil_iff.mp hdwnil
        have hlx := List.getLast?_eq_getLast_of_ne_nil hrne
        have h1 := hlastr _ hlx
        have h2 := hall _ (List.getLast_mem hrne)
        simp_all
      · have hlastdw : ∀ x, (r.dropWhile isPySpace).getLast? = some x →
            isPySpace x = false := by
          intro x hx
          refine hlastr x ?_
          conv_lhs => rw [← List.takeWhile_append_dropWhile isPySpace r]
          rwa [List.getLast?_append_of_ne_nil _ hdwnil]
        obtain ⟨z, t2, hcl⟩ : ∃ z t2,
            collapseWs (r.dropWhile isPySpace) = z :: t2 := by
          cases hcc : collapseWs (r.dropWhile isPySpace) with
          | nil => exact absurd hcc (collapseWs_ne_nil hdwnil)
          | cons z t2 => exact ⟨z, t2, rfl⟩
        rw [hcl, List.getLast?_cons_cons] at hy
        exact ih hlastdw y (by rw [hcl]; exact hy)
  | case3 c r hc ih =>
    intro h y hy
    have hc' : isPySpace c = false := by simpa using hc
    rw [collapseWs_cons_nws hc'] at hy
    by_cases hrne : r = []
    · subst hrne
      rw [collapseWs] at hy
      simp only [List.getLast?_singleton, Option.some.injEq] at hy
      subst hy
      exact hc'
    · obtain ⟨z, t, hcl⟩ : ∃ z t, collapseWs r = z :: t := by
        cases hcc : collapseWs r with
        | nil => exact absurd hcc (collapseWs_ne_nil hrne)
        | cons z t => exact ⟨z, t, rfl⟩
      rw [hcl, List.getLast?_cons_cons] at hy
      refine ih ?_ y (by rw [hcl]; exact hy)
      intro x hx
      refine h x ?_
      obtain ⟨r0, rr, rfl⟩ : ∃ r0 rr, r = r0 :: rr := by
        cases r with
        | nil => exact absurd rfl hrne
        | cons r0 rr => exact ⟨r0, rr, rfl⟩
      rwa [List.getLast?_cons_cons]

/-- `pyStrip l` is an infix of `l`. -/
theorem pyStrip_infix (l : List Char) :
    ∃ a b, l = a ++ (pyStrip l ++ b) := by
  refine ⟨l.takeWhile isPySpace,
    ((l.dropWhile isPySpace).reverse.takeWhile isPySpace).reverse, ?_⟩
  unfold pyStrip
  conv_lhs => rw [← List.takeWhile_append_dropWhile isPySpace l]
  congr 1
  conv_lhs => rw [← List.reverse_reverse (l.dropWhile isPySpace),
    ← List.takeWhile_append_dropWhile isPySpace (l.dropWhile isPySpace).reverse]
  rw [List.reverse_append]

theorem noOcc_take {f : Char → Char} {pat l : List Char} {n : Nat}
    (hp : pat ≠ []) (h : noOcc f pat l) : noOcc f pat (l.take n) := by
  have : l = [] ++ (l.take n ++ l.drop n) := by simp
  exact noOcc_middle hp (this ▸ h)

theorem noOcc_drop {f : Char → Char} {pat l : List Char} {n : Nat}
    (hp : pat ≠ []) (h : noOcc f pat l) : noOcc f pat (l.drop n) := by
  have : l = l.take n ++ (l.drop n ++ []) := by simp
  exact noOcc_middle hp (this ▸ h)

theorem noOcc_pyStrip {f : Char → Char} {pat l : List Char}
    (hp : pat ≠ []) (h : noOcc f pat l) : noOcc f pat (pyStrip l) := by
  obtain ⟨a, b, hab⟩ := pyStrip_infix l
  exact noOcc_middle hp (hab ▸ h)

/-- A whitespace-free literal heading the collapsed string heads the
original string as well. -/
theorem collapseWs_take_eq {l : List Char} :
    ∀ pat : List Char, (∀ c ∈ pat, isPySpace c = false) →
      (collapseWs l).take pat.length = pat → l.take pat.length = pat := by
  induction l using collapseWs.induct with
  | case1 =>
    intro pat hp h
    rw [collapseWs] at h
    simp only [List.take_nil] at h
    rw [← h]
    simp
  | case2 c r hc ih =>
    intro pat hp h
    rw [collapseWs_cons_ws hc] at h
    cases pat with
    | nil => simp
    | cons p0 pt =>
      exfalso
      simp only [List.length_cons, List.take_succ_cons, List.cons.injEq] at h
      have hws := hp p0 (by simp)
      rw [← h.1] at hws
      exact absurd hws (by decide)
  | case3 c r hc ih =>
    intro pat hp h
    have hc' : isPySpace c = false := by simpa using hc
    rw [collapseWs_cons_nws hc'] at h
    cases pat with
    | nil => simp
    | cons p0 pt =>
      simp only [List.length_cons, List.take_succ_cons, List.cons.injEq] at h ⊢
      exact ⟨h.1, ih pt (fun x hx => hp x (by simp [hx])) h.2⟩

theorem collapseWs_occ_zero {pat l : List Char}
    (hp : ∀ c ∈ pat, isPySpace c = false)
    (h : occAt (fun c => c) pat (collapseWs l) 0) :
    occAt (fun c => c) pat l 0 := by
  unfold occAt at h ⊢
  rw [List.drop_zero, map_id_eq, map_id_eq] at h ⊢
  exact collapseWs_take_eq pat hp h

/-- An occurrence of a whitespace-free literal in the collapsed string
gives an occurrence in the original string. -/
theorem collapseWs_occ {pat : List Char} (hpne : pat ≠ [])
    (hp : ∀ c ∈ pat, isPySpace c = false) :
    ∀ l : List Char, ∀ i : Nat, occAt (fun c => c) pat (collapseWs l) i →
      ∃ j, occAt (fun c => c) pat l j := by
  intro l
  induction l using collapseWs.induct with
  | case1 =>
    intro i h
    rw [collapseWs] at h
    refine absurd (occAt_le hpne h) ?_
    have := List.length_pos.mpr hpne
    simp only [List.length_nil]
    omega
  | case2 c r hc ih =>
    intro i h
    cases i with
    | zero => exact ⟨0, collapseWs_occ_zero hp h⟩
    | succ i' =>
      rw [collapseWs_cons_ws hc] at h
      obtain ⟨j, hj⟩ := ih i' (occAt_cons_succ.mp h)
      have hmid := occAt_of_middle hpne hj
        (a := r.takeWhile isPySpace) (b := [])
      rw [List.append_nil, List.takeWhile_append_dropWhile] at hmid
      exact ⟨(r.takeWhile isPySpace).length + j + 1,
        occAt_cons_succ.mpr hmid⟩
  | case3 c r hc ih =>
    intro i h
    cases i with
    | zero => exact ⟨0, collapseWs_occ_zero hp h⟩
    | succ i' =>
      have hc' : isPySpace c = false := by simpa using hc
      rw [collapseWs_cons_nws hc'] at h
      obtain ⟨j, hj⟩ := ih i' (occAt_cons_succ.mp h)
      exact ⟨j + 1, occAt_cons_succ.mpr hj⟩

theorem noOcc_collapseWs {pat l : List Char} (hpne : pat ≠ [])
    (hp : ∀ c ∈ pat, isPySpace c = false)
    (h : noOcc (fun c => c) pat l) :
    noOcc (fun c => c) pat (collapseWs l) := by
  intro i hi hocc
  obtain ⟨j, hj⟩ := collapseWs_occ hpne hp l i hocc
  have hle := occAt_le hpne hj
  have := List.length_pos.mpr hpne
  exact h j (by omega) hj

/-- A placeholder-marker-free document yields placeholder-marker-free
captured contexts (also after the 100-character truncation of the
placeholder renderer). -/
theorem noOcc_extract_context {cc : Nat} {D : List Char} {s e : Nat}
    (h : noOcc (fun c => c) litPH D) :
    noOcc (fun c => c) litPH ((extract_context cc D s e).1.take 100) ∧
    noOcc (fun c => c) litPH ((extract_context cc D s e).2.take 100) := by
  have hne : litPH ≠ [] := by decide
  have hws : ∀ c ∈ litPH, isPySpace c = false := by decide
  unfold extract_context
  constructor
  · exact noOcc_take hne (noOcc_collapseWs hne hws (noOcc_pyStrip hne
      (noOcc_drop hne (noOcc_take hne h))))
  · exact noOcc_take hne (noOcc_collapseWs hne hws (noOcc_pyStrip hne
      (noOcc_take hne (noOcc_drop hne h))))

/-- Occurrence-freeness of an assembled document passes to its gaps and
tail. -/
theorem noOcc_asmSeg_parts {f : Char → Char} {pat : List Char}
    (hpne : pat ≠ []) :
    ∀ {L : List (List Char × List Char)} {tail : List Char},
      noOcc f pat (asmSeg L tail) →
      (∀ gb ∈ L, noOcc f pat gb.1) ∧ noOcc f pat tail := by
  intro L
  induction L with
  | nil =>
    intro tail h
    exact ⟨by simp, h⟩
  | cons gb r ih =>
    intro tail h
    obtain ⟨g, b⟩ := gb
    have hshape : asmSeg ((g, b) :: r) tail
        = g ++ ((b ++ asmSeg r tail) ++ []) := by
      simp [asmSeg]
    have hrest : noOcc f pat (asmSeg r tail) := by
      have hshape2 : asmSeg ((g, b) :: r) tail
          = (g ++ b) ++ (asmSeg r tail ++ []) := by
        simp [asmSeg]
      exact noOcc_middle hpne (hshape2 ▸ h)
    have hg : noOcc f pat g := by
      have hshape3 : asmSeg ((g, b) :: r) tail
          = [] ++ (g ++ (b ++ asmSeg r tail)) := by
        simp [asmSeg]
      exact noOcc_middle hpne (hshape3 ▸ h)
    obtain ⟨hr, ht⟩ := ih hrest
    refine ⟨?_, ht⟩
    intro x hx
    rcases List.mem_cons.mp hx with hx1 | hx1
    · exact hx1 ▸ hg
    · exact hr x hx1

/-! ### The record list of an extraction, as a lookup table -/

/-- Shape of an element of `mkPhData`: its gap is a gap of the segment
list, its identifier a generated identifier, its annotations captured
contexts of the document. -/
theorem mkPhData_mem {cc : Nat} {D : List Char} :
    ∀ {L : List (List Char × List Char)} {p k : Nat}
      {e : List Char × (List Char × List Char × List Char)},
      e ∈ mkPhData cc D L p k →
      (∃ gb ∈ L, e.1 = gb.1) ∧
      (∃ b k', e.2.1 = generate_svg_id b k') ∧
      (∃ s ee, e.2.2.1 = (extract_context cc D s ee).1 ∧
               e.2.2.2 = (extract_context cc D s ee).2) := by
  intro L
  induction L with
  | nil =>
    intro p k e he
    rw [mkPhData] at he
    simp at he
  | cons gb r ih =>
    intro p k e he
    obtain ⟨g, b⟩ := gb
    rw [mkPhData] at he
    rcases List.mem_cons.mp he with h1 | h1
    · subst h1
      exact ⟨⟨(g, b), by simp, rfl⟩, ⟨b, k, rfl⟩,
        ⟨p + g.length, p + g.length + b.length, rfl, rfl⟩⟩
    · obtain ⟨⟨gb', hgb', hgb'e⟩, hid, hctx⟩ := ih h1
      exact ⟨⟨gb', by simp [hgb'], hgb'e⟩, hid, hctx⟩

/-- Every record of `mkRecords` is the record of one of the blocks, with
the identifier generated from that block's content and absolute index. -/
theorem mkRecords_mem {cc : Nat} {D : List Char} :
    ∀ {L : List (List Char × List Char)} {p k : Nat} {r : SvgData},
      r ∈ mkRecords cc D L p k →
      ∃ j gb, L[j]? = some gb ∧ r.id = generate_svg_id gb.2 (k + j) ∧
        r.svg_content = gb.2 := by
  intro L
  induction L with
  | nil =>
    intro p k r hr
    rw [mkRecords] at hr
    simp at hr
  | cons gb rest ih =>
    intro p k r hr
    obtain ⟨g, b⟩ := gb
    rw [mkRecords] at hr
    rcases List.mem_cons.mp hr with h1 | h1
    · subst h1
      exact ⟨0, (g, b), by simp, by simp, rfl⟩
    · obtain ⟨j, gb', hj, hid, hcont⟩ := ih h1
      refine ⟨j + 1, gb', by simpa using hj, ?_, hcont⟩
      rw [hid]
      congr 1
      omega

/-- Conversely, each block yields a record carrying its content. -/
theorem mkRecords_exists {cc : Nat} {D : List Char} :
    ∀ {L : List (List Char × List Char)} {p k j : Nat}
      {gb : List Char × List Char}, L[j]? = some gb →
      ∃ r ∈ mkRecords cc D L p k,
        r.id = generate_svg_id gb.2 (k + j) ∧ r.svg_content = gb.2 := by
  intro L
  induction L with
  | nil =>
    intro p k j gb hj
    simp at hj
  | cons gb0 rest ih =>
    intro p k j gb hj
    obtain ⟨g, b⟩ := gb0
    cases j with
    | zero =>
      simp only [List.getElem?_cons_zero, Option.some.injEq] at hj
      subst hj
      exact ⟨_, by rw [mkRecords]; exact List.mem_cons_self _ _,
        by simp, rfl⟩
    | succ j' =>
      simp only [List.getElem?_cons_succ] at hj
      obtain ⟨r, hrmem, hid, hcont⟩ := ih hj
      refine ⟨r, by rw [mkRecords]; exact List.mem_cons_of_mem _ hrmem,
        ?_, hcont⟩
      rw [hid]
      congr 1
      omega

/-- The dict lookup returns the common content of the records carrying the
looked-up identifier, provided there is at least one. -/
theorem dictGet_eq_some {data : List SvgData} {key v : List Char}
    (hex : ∃ r ∈ data, r.id = key ∧ r.svg_content = v)
    (huni : ∀ r ∈ data, r.id = key → r.svg_content = v) :
    dictGet data key = some v := by
  unfold dictGet
  obtain ⟨r0, hr0, hid0, hv0⟩ := hex
  have hsome : (data.reverse.find? (fun d => d.id == key)).isSome := by
    rw [List.find?_isSome]
    exact ⟨r0, List.mem_reverse.mpr hr0, by simp [hid0]⟩
  obtain ⟨x, hx⟩ := Option.isSome_iff_exists.mp hsome
  have hpx : x.id = key := by
    have := List.find?_some hx
    simpa using this
  have hxmem : x ∈ data := List.mem_reverse.mp (List.mem_of_find?_eq_some hx)
  rw [hx]
  simp [huni x hxmem hpx]

/-- Looking up the identifier generated for block `j` of an extraction
batch returns block `j`'s content: the zero-based index makes the
identifiers unique keys. -/
theorem dictGet_mkRecords {cc : Nat} {D : List Char}
    {L : List (List Char × List Char)} {j : Nat}
    {gb : List Char × List Char} (hj : L[j]? = some gb) :
    dictGet (mkRecords cc D L 0 0) (generate_svg_id gb.2 j) = some gb.2 := by
  have hex := @mkRecords_exists cc D L 0 0 j gb hj
  rw [show (0 : Nat) + j = j from by omega] at hex
  refine dictGet_eq_some hex ?_
  intro r hr hid
  obtain ⟨j', gb', hj', hid', hcont'⟩ := mkRecords_mem hr
  rw [hid'] at hid
  have hjj : (0 : Nat) + j' = j := generate_svg_id_index_inj hid
  have : j' = j := by omega
  subst this
  rw [hj] at hj'
  have hgg : gb = gb' := by injection hj'
  rw [hcont', ← hgg]

/-- When every identifier of the placeholder list looks up to its block's
content, the expected restoration reassembles the original document. -/
theorem expRestore_mkPhData {cc : Nat} {D : List Char} {data : List SvgData}
    {tail : List Char} :
    ∀ (L : List (List Char × List Char)) (p k : Nat),
      (∀ j gb, L[j]? = some gb →
        dictGet data (generate_svg_id gb.2 (k + j)) = some gb.2) →
      expRestore data (mkPhData cc D L p k) tail = asmSeg L tail := by
  intro L
  induction L with
  | nil =>
    intro p k h
    rw [mkPhData, expRestore, asmSeg]
  | cons gb r ih =>
    intro p k h
    obtain ⟨g, b⟩ := gb
    have hd := h 0 (g, b) (by simp)
    rw [show k + 0 = k from by omega] at hd
    have hrec : ∀ (j : Nat) (gb2 : List Char × List Char),
        r[j]? = some gb2 →
        dictGet data (generate_svg_id gb2.2 (k + 1 + j)) = some gb2.2 := by
      intro j gb2 hjg
      have := h (j + 1) gb2 (by simpa using hjg)
      rwa [show k + (j + 1) = k + 1 + j from by omega] at this
    rw [mkPhData, expRestore, hd, asmSeg,
      ih (p + g.length + b.length) (k + 1) hrec]

/-- Under the same lookup hypothesis no warning is emitted. -/
theorem expWarn_mkPhData {cc : Nat} {D : List Char} {data : List SvgData} :
    ∀ (L : List (List Char × List Char)) (p k : Nat),
      (∀ j gb, L[j]? = some gb →
        dictGet data (generate_svg_id gb.2 (k + j)) = some gb.2) →
      expWarn data (mkPhData cc D L p k) = [] := by
  intro L
  induction L with
  | nil =>
    intro p k h
    rw [mkPhData, expWarn]
  | cons gb r ih =>
    intro p k h
    obtain ⟨g, b⟩ := gb
    have hd := h 0 (g, b) (by simp)
    rw [show k + 0 = k from by omega] at hd
    have hrec : ∀ (j : Nat) (gb2 : List Char × List Char),
        r[j]? = some gb2 →
        dictGet data (generate_svg_id gb2.2 (k + 1 + j)) = some gb2.2 := by
      intro j gb2 hjg
      have := h (j + 1) gb2 (by simpa using hjg)
      rwa [show k + (j + 1) = k + 1 + j from by omega] at this
    rw [mkPhData, expWarn, hd]
    exact ih (p + g.length + b.length) (k + 1) hrec

/-- Master round-trip lemma: on a document assembled from opening-free gaps,
well-formed blocks and an opening-free tail, with no placeholder marker
text anywhere, restoring the extraction output reproduces the document and
warns about nothing. -/
theorem restore_extract_id {cc : Nat} {L : List (List Char × List Char)}
    {tail : List Char}
    (hg : ∀ gb ∈ L, noOcc lc litOpen gb.1 ∧ IsWfSvg gb.2)
    (htail : noOcc lc litOpen tail)
    (hph : noOcc (fun c => c) litPH (asmSeg L tail)) :
    restore_svgs (extract_svgs cc (asmSeg L tail)).1
      (extract_svgs cc (asmSeg L tail)).2 = (asmSeg L tail, []) := by
  have hext := @extract_svgs_asm cc L tail hg htail
  rw [hext]
  have hparts := noOcc_asmSeg_parts (f := fun c => c)
    (by decide : litPH ≠ []) hph
  have hP : ∀ e ∈ mkPhData cc (asmSeg L tail) L 0 0,
      noOcc (fun c => c) litPH e.1 ∧ e.2.1 ≠ [] ∧
      (∀ c ∈ e.2.1, classChar c = true) ∧
      noOcc (fun c => c) litPH (e.2.2.1.take 100) ∧
      noOcc (fun c => c) litPH (e.2.2.2.take 100) := by
    intro e he
    obtain ⟨⟨gb, hgb, hgap⟩, ⟨b, k', hid⟩, ⟨s, ee, hc1, hc2⟩⟩ :=
      mkPhData_mem he
    refine ⟨?_, ?_, ?_, ?_, ?_⟩
    · rw [hgap]; exact (hparts.1 gb hgb)
    · rw [hid]; exact generate_svg_id_ne_nil
    · rw [hid]; exact generate_svg_id_class
    · rw [hc1]; exact (noOcc_extract_context hph).1
    · rw [hc2]; exact (noOcc_extract_context hph).2
  have hlookup : ∀ (j : Nat) (gb : List Char × List Char),
      L[j]? = some gb →
      dictGet (mkRecords cc (asmSeg L tail) L 0 0)
        (generate_svg_id gb.2 (0 + j)) = some gb.2 := by
    intro j gb hj
    rw [show (0 : Nat) + j = j from by omega]
    exact dictGet_mkRecords hj
  unfold restore_svgs
  rw [phScan_asm hP hparts.2,
    expRestore_mkPhData L 0 0 hlookup, expWarn_mkPhData L 0 0 hlookup]

/-! ### Trimming facts for the captured contexts -/

theorem head?_getElem_zero (l : List Char) : l.head? = l[0]? := by
  cases l <;> simp

/-- Splitting a list at the trailing whitespace run of its tail. -/
theorem pyStrip_suffix_decomp (Y : List Char) :
    Y = (Y.reverse.dropWhile isPySpace).reverse ++
      (Y.reverse.takeWhile isPySpace).reverse := by
  conv_lhs => rw [← List.reverse_reverse Y,
    ← List.takeWhile_append_dropWhile isPySpace Y.reverse]
  rw [List.reverse_append]

theorem pyStrip_length_le (l : List Char) :
    (pyStrip l).length ≤ l.length := by
  unfold pyStrip
  have h1 := ((l.dropWhile isPySpace).reverse.dropWhile_sublist
    isPySpace).length_le
  have h2 := (l.dropWhile_sublist isPySpace).length_le
  simp only [List.length_reverse] at *
  omega

/-- A stripped string starts with a non-whitespace character. -/
theorem pyStrip_head {l : List Char} :
    ∀ x, (pyStrip l).head? = some x → isPySpace x = false := by
  intro x hx
  rw [head?_getElem_zero] at hx
  have hne : pyStrip l ≠ [] := by
    intro hcon
    rw [hcon] at hx
    simp at hx
  have hdecomp : l.dropWhile isPySpace = pyStrip l ++
      ((l.dropWhile isPySpace).reverse.takeWhile isPySpace).reverse := by
    unfold pyStrip
    exact pyStrip_suffix_decomp (l.dropWhile isPySpace)
  have hx2 : (l.dropWhile isPySpace)[0]? = some x := by
    rw [hdecomp, head?_append_left hne]
    exact hx
  exact dropWhile_head_false hx2

/-- A stripped string ends with a non-whitespace character. -/
theorem pyStrip_last {l : List Char} :
    ∀ x, (pyStrip l).getLast? = some x → isPySpace x = false := by
  intro x hx
  unfold pyStrip at hx
  rw [List.getLast?_reverse] at hx
  rw [head?_getElem_zero] at hx
  exact dropWhile_head_false hx

/-! ### The identifiers of an extraction batch (`extract_svgs` output) -/

/-- Every record's identifier is the deterministic function of its content
and sequence index. -/
theorem extractLoop_ids {cc : Nat} {html : List Char} :
    ∀ (spans : List (Nat × Nat)) (idx : Nat) (modified : List Char)
      (off : Int), ∀ r ∈ (extractLoop cc html spans idx modified off).2,
      r.id = generate_svg_id r.svg_content r.index := by
  intro spans
  induction spans with
  | nil =>
    intro idx modified off r hr
    rw [extractLoop] at hr
    simp at hr
  | cons se rest ih =>
    intro idx modified off r hr
    obtain ⟨s, e⟩ := se
    simp only [extractLoop, List.mem_cons] at hr
    rcases hr with h1 | h1
    · subst h1; rfl
    · exact ih _ _ _ r h1

theorem mkRecords_length {cc : Nat} {D : List Char} :
    ∀ {L : List (List Char × List Char)} {p k : Nat},
      (mkRecords cc D L p k).length = L.length := by
  intro L
  induction L with
  | nil =>
    intro p k
    rw [mkRecords]
    rfl
  | cons gb rest ih =>
    intro p k
    obtain ⟨g, b⟩ := gb
    rw [mkRecords]
    simp only [List.length_cons, ih]

/-- The identifiers of one extraction batch are pairwise distinct: the
embedded sequence indices differ. -/
theorem mkRecords_id_pairwise {cc : Nat} {D : List Char} :
    ∀ {L : List (List Char × List Char)} {p k : Nat},
      (mkRecords cc D L p k).Pairwise (fun a b => a.id ≠ b.id) := by
  intro L
  induction L with
  | nil => intro p k; rw [mkRecords]; exact List.Pairwise.nil
  | cons gb rest ih =>
    intro p k
    obtain ⟨g, b⟩ := gb
    rw [mkRecords]
    refine List.pairwise_cons.mpr ⟨?_, ih⟩
    intro r hr heq
    obtain ⟨j, gb', hj, hid, -⟩ := mkRecords_mem hr
    rw [hid] at heq
    have := generate_svg_id_index_inj heq
    omega

/-! ### Unterminated blocks: a document with no closing marker -/

theorem svgMatchLen_none_of_no_close {t : List Char}
    (h : noOcc lc litClose t) : svgMatchLen t = none := by
  cases ho : svgOpenLen t with
  | none =>
    unfold svgMatchLen
    simp only [ho]
  | some m =>
    cases hf : findOccCI litClose (t.drop m) with
    | none =>
      unfold svgMatchLen
      simp only [ho, hf]
    | some k =>
      exfalso
      have hocc := (findOccCI_some hf).1
      have hocc2 : occAt lc litClose t (m + k) := occAt_drop.mp hocc
      have hle := occAt_le (by decide : litClose ≠ []) hocc2
      refine h (m + k) ?_ hocc2
      have h6 : litClose.length = 6 := by decide
      omega

theorem svgScan_empty_of_no_close {t : List Char} {p : Nat}
    (h : noOcc lc litClose t) : svgScan t p = [] := by
  induction t generalizing p with
  | nil => rw [svgScan]
  | cons c r ih =>
    rw [svgScan_nomatch (svgMatchLen_none_of_no_close h)]
    exact ih (fun j hj hocc =>
      h (j + 1) (by simp; omega) (occAt_cons_succ.mpr hocc))

theorem extract_svgs_no_close {cc : Nat} {t : List Char}
    (h : noOcc lc litClose t) : extract_svgs cc t = (t, []) := by
  unfold extract_svgs
  rw [svgScan_empty_of_no_close h, extractLoop]

/-! ### Python `min`/`max` over a nonempty list -/

theorem foldl_min_le_init : ∀ (l : List Nat) (a : Nat), l.foldl min a ≤ a := by
  intro l
  induction l with
  | nil => intro a; exact le_refl a
  | cons x t ih =>
    intro a
    calc t.foldl min (min a x) ≤ min a x := ih (min a x)
    _ ≤ a := min_le_left a x

theorem foldl_min_le_mem :
    ∀ (l : List Nat) (a : Nat), ∀ x ∈ l, l.foldl min a ≤ x := by
  intro l
  induction l with
  | nil => intro a x hx; simp at hx
  | cons y t ih =>
    intro a x hx
    rcases List.mem_cons.mp hx with h1 | h1
    · subst h1
      calc t.foldl min (min a x) ≤ min a x := foldl_min_le_init t (min a x)
      _ ≤ x := min_le_right a x
    · exact ih (min a y) x h1

theorem foldl_min_mem :
    ∀ (l : List Nat) (a : Nat), l.foldl min a = a ∨ l.foldl min a ∈ l := by
  intro l
  induction l with
  | nil => intro a; exact Or.inl rfl
  | cons y t ih =>
    intro a
    rcases ih (min a y) with h1 | h1
    · rcases Nat.le_total a y with hay | hay
      · rw [List.foldl_cons, h1, min_eq_left hay]
        exact Or.inl rfl
      · rw [List.foldl_cons, h1, min_eq_right hay]
        exact Or.inr (by simp)
    · rw [List.foldl_cons]
      exact Or.inr (by simp [h1])

theorem foldl_max_init_le : ∀ (l : List Nat) (a : Nat), a ≤ l.foldl max a := by
  intro l
  induction l with
  | nil => intro a; exact le_refl a
  | cons x t ih =>
    intro a
    calc a ≤ max a x := le_max_left a x
    _ ≤ t.foldl max (max a x) := ih (max a x)

theorem foldl_max_mem_le :
    ∀ (l : List Nat) (a : Nat), ∀ x ∈ l, x ≤ l.foldl max a := by
  intro l
  induction l with
  | nil => intro a x hx; simp at hx
  | cons y t ih =>
    intro a x hx
    rcases List.mem_cons.mp hx with h1 | h1
    · subst h1
      calc x ≤ max a x := le_max_right a x
      _ ≤ t.foldl max (max a x) := foldl_max_init_le t (max a x)
    · exact ih (max a y) x h1

theorem foldl_max_mem :
    ∀ (l : List Nat) (a : Nat), l.foldl max a = a ∨ l.foldl max a ∈ l := by
  intro l
  induction l with
  | nil => intro a; exact Or.inl rfl
  | cons y t ih =>
    intro a
    rcases ih (max a y) with h1 | h1
    · rcases Nat.le_total a y with hay | hay
      · rw [List.foldl_cons, h1, max_eq_right hay]
        exact Or.inr (by simp)
      · rw [List.foldl_cons, h1, max_eq_left hay]
        exact Or.inl rfl
    · rw [List.foldl_cons]
      exact Or.inr (by simp [h1])

theorem minList_le {l : List Nat} : ∀ x ∈ l, minList l ≤ x := by
  intro x hx
  cases l with
  | nil => simp at hx
  | cons y t =>
    rcases List.mem_cons.mp hx with h1 | h1
    · subst h1
      exact foldl_min_le_init t x
    · exact foldl_min_le_mem t y x h1

theorem minList_mem {l : List Nat} (h : l ≠ []) : minList l ∈ l := by
  cases l with
  | nil => exact absurd rfl h
  | cons y t =>
    have hm : minList (y :: t) = t.foldl min y := rfl
    rw [hm]
    rcases foldl_min_mem t y with h1 | h1
    · rw [h1]; simp
    · exact List.mem_cons_of_mem _ h1

theorem maxList_ge {l : List Nat} : ∀ x ∈ l, x ≤ maxList l := by
  intro x hx
  cases l with
  | nil => simp at hx
  | cons y t =>
    rcases List.mem_cons.mp hx with h1 | h1
    · subst h1
      exact foldl_max_init_le t x
    · exact foldl_max_mem_le t y x h1

theorem maxList_mem {l : List Nat} (h : l ≠ []) : maxList l ∈ l := by
  cases l with
  | nil => exact absurd rfl h
  | cons y t =>
    have hm : maxList (y :: t) = t.foldl max y := rfl
    rw [hm]
    rcases foldl_max_mem t y with h1 | h1
    · rw [h1]; simp
    · exact List.mem_cons_of_mem _ h1

/-! ### The fuel twins compute the well-founded scanners -/

theorem decDigitsF_eq : ∀ (fuel n : Nat), n < fuel →
    decDigitsF fuel n = decDigits n := by
  intro fuel
  induction fuel with
  | zero => intro n h; omega
  | succ f ih =>
    intro n h
    by_cases h10 : n < 10
    · rw [decDigitsF, if_pos h10, decDigits, dif_pos h10]
    · have hdiv := Nat.div_lt_self (show 0 < n by omega) (show 1 < 10 by omega)
      rw [decDigitsF, if_neg h10, decDigits, dif_neg h10,
        ih (n / 10) (by omega)]

theorem pad4F_eq (n : Nat) : pad4F n = pad4 n := by
  unfold pad4F pad4
  rw [decDigitsF_eq (n + 1) n (by omega)]

theorem generate_svg_idF_eq (content : List Char) (index : Nat) :
    generate_svg_idF content index = generate_svg_id content index := by
  unfold generate_svg_idF generate_svg_id
  rw [pad4F_eq]

theorem collapseWsF_eq : ∀ (fuel : Nat) (l : List Char), l.length ≤ fuel →
    collapseWsF fuel l = collapseWs l := by
  intro fuel
  induction fuel with
  | zero =>
    intro l h
    have hnil : l = [] := by
      cases l with
      | nil => rfl
      | cons c r => simp at h
    subst hnil
    rw [collapseWs]
    rfl
  | succ f ih =>
    intro l h
    cases l with
    | nil =>
      rw [collapseWs]
      rfl
    | cons c r =>
      simp only [List.length_cons] at h
      by_cases hc : isPySpace c
      · have hstep : collapseWsF (f + 1) (c :: r)
            = ' ' :: collapseWsF f (r.dropWhile isPySpace) := by
          simp only [collapseWsF, if_pos hc]
        rw [hstep, collapseWs_cons_ws hc,
          ih (r.dropWhile isPySpace)
            (le_trans (r.dropWhile_sublist isPySpace).length_le (by omega))]
      · have hc' : isPySpace c = false := by simpa using hc
        have hstep : collapseWsF (f + 1) (c :: r)
            = c :: collapseWsF f r := by
          simp only [collapseWsF, hc']
          rw [if_neg (by simp)]
        rw [hstep, collapseWs_cons_nws hc', ih r (by omega)]

theorem extract_contextF_eq (cc : Nat) (html : List Char) (s e : Nat) :
    extract_contextF cc html s e = extract_context cc html s e := by
  simp only [extract_contextF, extract_context]
  rw [collapseWsF_eq _ _ (le_refl _), collapseWsF_eq _ _ (le_refl _)]

theorem svgScanF_eq : ∀ (fuel : Nat) (t : List Char) (p : Nat),
    t.length ≤ fuel → svgScanF fuel t p = svgScan t p := by
  intro fuel
  induction fuel with
  | zero =>
    intro t p h
    have hnil : t = [] := by
      cases t with
      | nil => rfl
      | cons c r => simp at h
    subst hnil
    rw [svgScan]
    rfl
  | succ f ih =>
    intro t p h
    cases t with
    | nil =>
      rw [svgScan]
      rfl
    | cons c r =>
      simp only [List.length_cons] at h
      cases hm : svgMatchLen (c :: r) with
      | some n =>
        have hstep : svgScanF (f + 1) (c :: r) p
            = (p, p + n) :: svgScanF f ((c :: r).drop n) (p + n) := by
          simp only [svgScanF, hm]
        obtain ⟨-, hle, hpos⟩ := svgMatchLen_some_wf hm
        rw [hstep, svgScan_match hm,
          ih ((c :: r).drop n) (p + n)
            (by simp only [List.length_drop, List.length_cons] at *; omega)]
      | none =>
        have hstep : svgScanF (f + 1) (c :: r) p = svgScanF f r (p + 1) := by
          simp only [svgScanF, hm]
        rw [hstep, svgScan_nomatch hm, ih r (p + 1) (by omega)]

theorem extractLoopF_eq {cc : Nat} {html : List Char} :
    ∀ (spans : List (Nat × Nat)) (idx : Nat) (modified : List Char)
      (off : Int), extractLoopF cc html spans idx modified off
        = extractLoop cc html spans idx modified off := by
  intro spans
  induction spans with
  | nil =>
    intro idx modified off
    rw [extractLoopF, extractLoop]
  | cons se rest ih =>
    intro idx modified off
    obtain ⟨s, e⟩ := se
    simp only [extractLoopF, extractLoop, generate_svg_idF_eq,
      extract_contextF_eq, ih]

theorem extract_svgsF_eq (cc : Nat) (html : List Char) :
    extract_svgsF cc html = extract_svgs cc html := by
  unfold extract_svgsF extract_svgs
  rw [svgScanF_eq html.length html 0 (le_refl _), extractLoopF_eq]

/-! ### No `<svg` occurrence inside an emitted placeholder -/

/-- Splitting rule: a straddling occurrence would place the pattern head
inside the overhang of the left part. -/
theorem noOcc_append_head0 {f : Char → Char} {pat X Y : List Char}
    (hp : pat ≠ []) (hX : noOcc f pat X) (hY : noOcc f pat Y)
    (hs : ∀ i, i < X.length → X.length < i + pat.length →
      (X[i]?).map f ≠ (pat[0]?).map f) :
    noOcc f pat (X ++ Y) := by
  refine noOcc_append hp hX hY ?_
  intro i hi hover hocc
  have h0 := occAt_get hocc 0 (List.length_pos.mpr hp)
  rw [Nat.add_zero] at h0
  rw [List.getElem?_append, if_pos hi] at h0
  exact hs i hi hover h0

/-- The same rule when the left part ends in a known suffix `S` long enough
to contain the whole overhang. -/
theorem noOcc_append_via_suffix {f : Char → Char} {pat W S Y : List Char}
    (hp : pat ≠ []) (hX : noOcc f pat (W ++ S)) (hY : noOcc f pat Y)
    (hlen : pat.length ≤ S.length + 1)
    (hs : ∀ j, j < S.length → S.length < j + pat.length →
      (S[j]?).map f ≠ (pat[0]?).map f) :
    noOcc f pat ((W ++ S) ++ Y) := by
  refine noOcc_append_head0 hp hX hY ?_
  intro i hi hover h0
  have hiW : W.length ≤ i := by
    simp only [List.length_append] at hi hover
    omega
  rw [List.getElem?_append_right hiW] at h0
  refine hs (i - W.length) ?_ ?_ h0
  · simp only [List.length_append] at hi
    omega
  · simp only [List.length_append] at hover
    omega

/-- An identifier character is not an ASCII uppercase letter. -/
theorem classChar_not_upper {c : Char} (h : classChar c = true) :
    ¬('A' ≤ c ∧ c ≤ 'Z') := by
  intro hpos
  have hA : (65 : Nat) ≤ c.toNat := hpos.1
  have hZ : c.toNat ≤ 90 := hpos.2
  unfold classChar at h
  simp only [Bool.or_eq_true, Bool.and_eq_true, decide_eq_true_eq,
    beq_iff_eq] at h
  rcases h with (h1 | h1) | h1
  · have ha : (97 : Nat) ≤ c.toNat := h1.1
    omega
  · have h0 : (48 : Nat) ≤ c.toNat := h1.1
    have h9 : c.toNat ≤ 57 := h1.2
    omega
  · subst h1
    exact absurd hZ (by decide)

/-- Case folding fixes identifier characters. -/
theorem lc_class {c : Char} (h : classChar c = true) : lc c = c := by
  unfold lc
  rw [if_neg (classChar_not_upper h)]

/-- An identifier character cannot be any character of `<svg`. -/
theorem lc_class_ne {c : Char} (h : classChar c = true) :
    lc c ≠ '<' ∧ lc c ≠ 's' ∧ lc c ≠ 'v' ∧ lc c ≠ 'g' := by
  rw [lc_class h]
  refine ⟨?_, ?_, ?_, ?_⟩ <;> intro hcon <;> rw [hcon] at h <;>
    exact absurd h (by decide)

/-- Identifier text contains no case-insensitive `<svg`. -/
theorem noOcc_litOpen_of_class {sid : List Char}
    (hcls : ∀ c ∈ sid, classChar c = true) :
    noOcc lc litOpen sid := by
  refine noOcc_of_no_head (by decide) ?_
  intro i hi
  cases hg : sid[i]? with
  | none => simp [show litOpen[0]? = some '<' from by decide]
  | some c =>
    have hc : c ∈ sid := by
      obtain ⟨hlt, heq⟩ := List.getElem?_eq_some.mp hg
      exact heq ▸ List.getElem_mem hlt
    have hf := (lc_class_ne (hcls c hc)).1
    simp only [show litOpen[0]? = some '<' from by decide, Option.map_some']
    intro hcon
    simp only [Option.some.injEq] at hcon
    rw [show lc '<' = '<' from by decide] at hcon
    exact hf hcon

/-- Identifier text cannot continue a straddling `<svg` occurrence. -/
theorem sid_head_rule {sid : List Char}
    (hcls : ∀ c ∈ sid, classChar c = true) :
    ∀ k < litOpen.length, 0 < k →
      (sid[0]?).map lc ≠ (litOpen[k]?).map lc := by
  intro k hk hk0
  have hk4 : k < 4 := by simpa using hk
  cases hg : sid[0]? with
  | none =>
    intro hcon
    interval_cases k <;> exact absurd hcon (by decide)
  | some c =>
    have hc : c ∈ sid := by
      obtain ⟨hlt, heq⟩ := List.getElem?_eq_some.mp hg
      exact heq ▸ List.getElem_mem hlt
    obtain ⟨-, hs, hv, hg'⟩ := lc_class_ne (hcls c hc)
    intro hcon
    simp only [Option.map_some'] at hcon
    interval_cases k
    · rw [show (litOpen[1]?).map lc = some 's' from by decide] at hcon
      simp only [Option.some.injEq] at hcon
      exact hs hcon
    · rw [show (litOpen[2]?).map lc = some 'v' from by decide] at hcon
      simp only [Option.some.injEq] at hcon
      exact hv hcon
    · rw [show (litOpen[3]?).map lc = some 'g' from by decide] at hcon
      simp only [Option.some.injEq] at hcon
      exact hg' hcon

/-- An emitted placeholder contains no case-insensitive `<svg` occurrence
provided its truncated context annotations contain none. -/
theorem noOcc_litOpen_create_placeholder {sid cb ca : List Char}
    (hcls : ∀ c ∈ sid, classChar c = true)
    (hcb : noOcc lc litOpen (cb.take 100))
    (hca : noOcc lc litOpen (ca.take 100)) :
    noOcc lc litOpen (create_placeholder sid cb ca) := by
  have hp : litOpen ≠ [] := by decide
  have hsidY := sid_head_rule hcls
  have hsidN := noOcc_litOpen_of_class hcls
  have n2 : noOcc lc litOpen (phA ++ sid) :=
    noOcc_append_head hp (by decide) hsidN hsidY
  have n3 : noOcc lc litOpen ((phA ++ sid) ++ phB) :=
    noOcc_append_head hp n2 (by decide) (by decide)
  have n4 : noOcc lc litOpen (((phA ++ sid) ++ phB) ++ cb.take 100) :=
    noOcc_append_via_suffix hp n3 hcb (by decide) (by decide)
  have n5 : noOcc lc litOpen
      ((((phA ++ sid) ++ phB) ++ cb.take 100) ++ phC) :=
    noOcc_append_head hp n4 (by decide) (by decide)
  have n6 : noOcc lc litOpen
      (((((phA ++ sid) ++ phB) ++ cb.take 100) ++ phC) ++ ca.take 100) :=
    noOcc_append_via_suffix hp n5 hca (by decide) (by decide)
  have n7 : noOcc lc litOpen
      ((((((phA ++ sid) ++ phB) ++ cb.take 100) ++ phC) ++ ca.take 100)
        ++ phD) :=
    noOcc_append_head hp n6 (by decide) (by decide)
  have n8 : noOcc lc litOpen
      (((((((phA ++ sid) ++ phB) ++ cb.take 100) ++ phC) ++ ca.take 100)
        ++ phD) ++ sid) :=
    noOcc_append_head hp n7 hsidN hsidY
  have n9 : noOcc lc litOpen
      ((((((((phA ++ sid) ++ phB) ++ cb.take 100) ++ phC) ++ ca.take 100)
        ++ phD) ++ sid) ++ phE) :=
    noOcc_append_head hp n8 (by decide) (by decide)
  have n10 : noOcc lc litOpen
      (((((((((phA ++ sid) ++ phB) ++ cb.take 100) ++ phC) ++ ca.take 100)
        ++ phD) ++ sid) ++ phE) ++ sid) :=
    noOcc_append_head hp n9 hsidN hsidY
  have n11 : noOcc lc litOpen
      ((((((((((phA ++ sid) ++ phB) ++ cb.take 100) ++ phC) ++ ca.take 100)
        ++ phD) ++ sid) ++ phE) ++ sid) ++ phF) :=
    noOcc_append_head hp n10 (by decide) (by decide)
  exact n11

/-- An assembled placeholder document contains no case-insensitive `<svg`
occurrence when its gaps, contexts and tail contain none. -/
theorem noOcc_litOpen_asmPB
    {P : List (List Char × (List Char × List Char × List Char))}
    {tail : List Char}
    (hP : ∀ e ∈ P, noOcc lc litOpen e.1 ∧
      (∀ c ∈ e.2.1, classChar c = true) ∧
      noOcc lc litOpen (e.2.2.1.take 100) ∧
      noOcc lc litOpen (e.2.2.2.take 100))
    (htail : noOcc lc litOpen tail) :
    noOcc lc litOpen (asmPB P tail) := by
  induction P with
  | nil => exact htail
  | cons e r ih =>
    obtain ⟨g, sid, cb, ca⟩ := e
    obtain ⟨hg, hcls, hcb, hca⟩ := hP (g, sid, cb, ca) (by simp)
    have hrest : noOcc lc litOpen (asmPB r tail) :=
      ih (fun e he => hP e (by simp [he]))
    have hph := noOcc_litOpen_create_placeholder hcls hcb hca
    have hph2 : noOcc lc litOpen
        ((((((((((phA ++ sid) ++ phB) ++ cb.take 100) ++ phC) ++ ca.take 100)
          ++ phD) ++ sid) ++ phE) ++ sid) ++ phF) := hph
    have h1 : noOcc lc litOpen
        (create_placeholder sid cb ca ++ asmPB r tail) := by
      have := noOcc_append_via_suffix (by decide) hph2 hrest
        (by decide) (by decide)
      exact this
    have h2 : noOcc lc litOpen
        (g ++ (create_placeholder sid cb ca ++ asmPB r tail)) := by
      refine noOcc_append_head (by decide) hg h1 ?_
      simp only [create_placeholder_head]
      decide
    have hshape : asmPB ((g, (sid, cb, ca)) :: r) tail
        = g ++ (create_placeholder sid cb ca ++ asmPB r tail) := by
      rw [asmPB]
      simp [List.append_assoc]
    rw [hshape]
    exact h2

/-- Amended second-pass property: the marker and structural lines of a
placeholder are never matched, so when the captured context annotations
embed no case-insensitive `<svg` text either, a second extraction pass over
the output matches nothing at all. -/
theorem second_pass_empty {cc : Nat} {L : List (List Char × List Char)}
    {tail : List Char}
    (hg : ∀ gb ∈ L, noOcc lc litOpen gb.1 ∧ IsWfSvg gb.2)
    (htail : noOcc lc litOpen tail)
    (hctx : ∀ e ∈ mkPhData cc (asmSeg L tail) L 0 0,
      noOcc lc litOpen (e.2.2.1.take 100) ∧
      noOcc lc litOpen (e.2.2.2.take 100)) :
    svgScan (extract_svgs cc (asmSeg L tail)).1 0 = [] := by
  rw [extract_svgs_asm hg htail]
  refine svgScan_empty_of_noOcc (noOcc_litOpen_asmPB ?_ htail)
  intro e he
  obtain ⟨⟨gb, hgb, hgap⟩, ⟨b, k', hid⟩, -⟩ := mkPhData_mem he
  obtain ⟨hc1, hc2⟩ := hctx e he
  refine ⟨?_, ?_, hc1, hc2⟩
  · rw [hgap]
    exact (hg gb hgb).1
  · rw [hid]
    exact generate_svg_id_class

/-- Head of a stripped-and-collapsed string is non-whitespace. -/
theorem collapseWs_pyStrip_head {w : List Char} :
    ∀ x, (collapseWs (pyStrip w)).head? = some x → isPySpace x = false := by
  intro x hx
  cases hp : pyStrip w with
  | nil =>
    rw [hp] at hx
    rw [collapseWs] at hx
    simp at hx
  | cons y t =>
    have hy : isPySpace y = false := pyStrip_head y (by rw [hp]; simp)
    have hcw := collapseWs_head (l := y :: t) (x := y) (by simp) hy
    rw [hp, head?_getElem_zero, hcw] at hx
    simp only [Option.some.injEq] at hx
    rw [hx] at hy
    exact hy

/-- Last character of a stripped-and-collapsed string is non-whitespace. -/
theorem collapseWs_pyStrip_last {w : List Char} :
    ∀ x, (collapseWs (pyStrip w)).getLast? = some x → isPySpace x = false :=
  collapseWs_last (fun x hx => pyStrip_last x hx)

/-- The warning list is exactly the missing identifiers, in order. -/
theorem expWarn_filter (data : List SvgData) :
    ∀ P : List (List Char × (List Char × List Char × List Char)),
      expWarn data P = (P.map (fun e => e.2.1)).filter
        (fun sid => (dictGet data sid).isNone) := by
  intro P
  induction P with
  | nil => rfl
  | cons e r ih =>
    obtain ⟨g, sid, cb, ca⟩ := e
    rw [expWarn]
    cases hd : dictGet data sid with
    | some v => simp [hd, ih]
    | none => simp [hd, ih]

/-! ### Mixed documents: structured front, unterminated trailing part -/

/-- `svgScan_asm` generalised: the trailing part may be any text the
locator reports nothing on (for instance because it contains no closing
marker), not only `<svg`-free text. -/
theorem svgScan_asm_gen {L : List (List Char × List Char)} {tail : List Char}
    {p : Nat}
    (hg : ∀ gb ∈ L, noOcc lc litOpen gb.1 ∧ IsWfSvg gb.2)
    (htail : ∀ q, svgScan tail q = []) :
    svgScan (asmSeg L tail) p = spansOf L p := by
  induction L generalizing p with
  | nil => exact htail p
  | cons gb r ih =>
    obtain ⟨g, b⟩ := gb
    obtain ⟨hgo, hwf⟩ := hg (g, b) (by simp)
    have hW : ((b ++ asmSeg r tail)[0]?).map lc = some '<' := by
      obtain ⟨hb0, hbne⟩ := wf_head_lt hwf
      rwa [List.getElem?_append, if_pos (by
        cases b
        · exact absurd rfl hbne
        · simp)]
    have hasm : asmSeg ((g, b) :: r) tail = g ++ (b ++ asmSeg r tail) := by
      simp [asmSeg]
    rw [hasm, svgScan_clean_front (no_open_in_gap hgo hW), svgScan_wf_front hwf,
      ih (fun gb hgb => hg gb (by simp [hgb])), spansOf]

/-- `extract_svgs_asm` with the same generalised trailing part. -/
theorem extract_svgs_asm_gen {cc : Nat} {L : List (List Char × List Char)}
    {tail : List Char}
    (hg : ∀ gb ∈ L, noOcc lc litOpen gb.1 ∧ IsWfSvg gb.2)
    (htail : ∀ q, svgScan tail q = []) :
    extract_svgs cc (asmSeg L tail) =
      (asmPB (mkPhData cc (asmSeg L tail) L 0 0) tail,
       mkRecords cc (asmSeg L tail) L 0 0) := by
  unfold extract_svgs
  rw [svgScan_asm_gen hg htail]
  have := extractLoop_asm cc (asmSeg L tail) tail L 0 0 [] ⟨[], by simp, rfl⟩
  simpa using this

/-- Every reported block span ends within the structured front of the
document, before the trailing part. -/
theorem spansOf_le : ∀ {L : List (List Char × List Char)} {p : Nat},
    ∀ sp ∈ spansOf L p, sp.2 ≤ p + (asmSeg L []).length := by
  intro L
  induction L with
  | nil =>
    intro p sp hsp
    simp [spansOf] at hsp
  | cons gb r ih =>
    intro p sp hsp
    obtain ⟨g, b⟩ := gb
    have hlen : (asmSeg ((g, b) :: r) []).length
        = g.length + b.length + (asmSeg r []).length := by
      rw [asmSeg]
      simp only [List.length_append]
    rw [spansOf] at hsp
    rcases List.mem_cons.mp hsp with h1 | h1
    · subst h1
      omega
    · have := ih sp h1
      omega

/-- A string shorter than the pattern is occurrence-free. -/
theorem noOcc_short {f : Char → Char} {pat l : List Char}
    (h : l.length < pat.length) : noOcc f pat l := by
  intro i hi hocc
  have hlen := congrArg List.length hocc
  simp only [List.length_map, List.length_take, List.length_drop] at hlen
  omega

/-- Both captured contexts are at most `cc` characters long. -/
theorem extract_context_length_le (cc : Nat) (D : List Char) (s e : Nat) :
    (extract_context cc D s e).1.length ≤ cc ∧
    (extract_context cc D s e).2.length ≤ cc := by
  have h1 : (extract_context cc D s e).1
      = collapseWs (pyStrip ((D.take s).drop (s - cc))) := rfl
  have h2 : (extract_context cc D s e).2
      = collapseWs (pyStrip ((D.drop e).take cc)) := rfl
  constructor
  · rw [h1]
    have ha := collapseWs_length_le (pyStrip ((D.take s).drop (s - cc)))
    have hb := pyStrip_length_le ((D.take s).drop (s - cc))
    have hc : ((D.take s).drop (s - cc)).length ≤ cc := by
      simp only [List.length_drop, List.length_take]
      omega
    omega
  · rw [h2]
    have ha := collapseWs_length_le (pyStrip ((D.drop e).take cc))
    have hb := pyStrip_length_le ((D.drop e).take cc)
    have hc : ((D.drop e).take cc).length ≤ cc := by
      simp only [List.length_take, List.length_drop]
      omega
    omega

/-- With a context budget below the pattern length, the truncated context
annotations are occurrence-free for trivial reasons of length. -/
theorem noOcc_context_take_of_small {f : Char → Char} {pat : List Char}
    {cc : Nat} {D : List Char} {s e : Nat} (h : cc < pat.length) :
    noOcc f pat ((extract_context cc D s e).1.take 100) ∧
    noOcc f pat ((extract_context cc D s e).2.take 100) := by
  obtain ⟨h1, h2⟩ := extract_context_length_le cc D s e
  constructor
  · refine noOcc_short ?_
    simp only [List.length_take]
    omega
  · refine noOcc_short ?_
    simp only [List.length_take]
    omega

/-! ### The claims -/

/-- Claim C1: round-trip identity.  For a document assembled from gaps free
of `<svg` openings, well-formed SVG blocks and a tail, containing no
pre-existing placeholder marker text, restoring the output of extraction
(`restore_svgs` on the modified HTML and record list of `extract_svgs`)
reproduces the document exactly and warns about nothing: the gaps and tail
stay byte-for-byte and every block's content is reinserted verbatim at its
position. -/
theorem claim_C1 (cc : Nat) (L : List (List Char × List Char))
    (tail : List Char)
    (hg : ∀ gb ∈ L, noOcc lc litOpen gb.1 ∧ IsWfSvg gb.2)
    (htail : noOcc lc litOpen tail)
    (hph : noOcc (fun c => c) litPH (asmSeg L tail)) :
    restore_svgs (extract_svgs cc (asmSeg L tail)).1
      (extract_svgs cc (asmSeg L tail)).2 = (asmSeg L tail, []) :=
  restore_extract_id hg htail hph

/-- Witness for C1: a one-block document round-trips. -/
theorem claim_C1_witness :
    restore_svgs
        (extract_svgs 150 (asmSeg [("<p>A</p>".toList,
            "<svg a=\x22b\x22>x</svg>".toList)] "<p>B</p>".toList)).1
        (extract_svgs 150 (asmSeg [("<p>A</p>".toList,
            "<svg a=\x22b\x22>x</svg>".toList)] "<p>B</p>".toList)).2
      = (asmSeg [("<p>A</p>".toList, "<svg a=\x22b\x22>x</svg>".toList)]
          "<p>B</p>".toList, []) :=
  claim_C1 150 [("<p>A</p>".toList, "<svg a=\x22b\x22>x</svg>".toList)]
    "<p>B</p>".toList
    (by
      intro gb hgb
      rw [List.mem_singleton] at hgb
      subst hgb
      exact ⟨by decide, "<svg".toList, ' ', "a=\x22b\x22".toList, "x".toList,
        "</svg>".toList, by decide, by decide, by decide, by decide,
        by decide, by decide⟩)
    (by decide) (by decide)

/-- Claim C2: missing-identifier resilience.  Restoring a placeholder
document against a record list behaves per placeholder: a placeholder whose
identifier looks up keeps the looked-up content, one whose identifier is
missing keeps its full text completely unchanged (see `expRestore`), a
warning names each missing identifier, and the warning list is exactly the
missing identifiers in document order. -/
theorem claim_C2 (data : List SvgData)
    (P : List (List Char × (List Char × List Char × List Char)))
    (tail : List Char)
    (hP : ∀ e ∈ P, noOcc (fun c => c) litPH e.1 ∧ e.2.1 ≠ [] ∧
      (∀ c ∈ e.2.1, classChar c = true) ∧
      noOcc (fun c => c) litPH (e.2.2.1.take 100) ∧
      noOcc (fun c => c) litPH (e.2.2.2.take 100))
    (htail : noOcc (fun c => c) litPH tail) :
    restore_svgs (asmPB P tail) data
      = (expRestore data P tail, expWarn data P) ∧
    expWarn data P = (P.map (fun e => e.2.1)).filter
      (fun sid => (dictGet data sid).isNone) := by
  constructor
  · unfold restore_svgs
    exact phScan_asm hP htail
  · exact expWarn_filter data P

/-- Witness for C2: one known and one missing identifier. -/
theorem claim_C2_witness :
    restore_svgs
        (asmPB [("A".toList, ("0000_aaaaaaaa".toList, ([] : List Char), ([] : List Char))),
                ("B".toList, ("0001_bbbbbbbb".toList, ([] : List Char), ([] : List Char)))] "!".toList)
        [⟨"0000_aaaaaaaa".toList, 0, "<svg/>".toList, [], [], 0, 0⟩]
      = (expRestore [⟨"0000_aaaaaaaa".toList, 0, "<svg/>".toList, [], [], 0, 0⟩]
          [("A".toList, ("0000_aaaaaaaa".toList, ([] : List Char), ([] : List Char))),
           ("B".toList, ("0001_bbbbbbbb".toList, ([] : List Char), ([] : List Char)))] "!".toList,
         expWarn [⟨"0000_aaaaaaaa".toList, 0, "<svg/>".toList, [], [], 0, 0⟩]
          [("A".toList, ("0000_aaaaaaaa".toList, ([] : List Char), ([] : List Char))),
           ("B".toList, ("0001_bbbbbbbb".toList, ([] : List Char), ([] : List Char)))]) ∧
    expWarn [⟨"0000_aaaaaaaa".toList, 0, "<svg/>".toList, [], [], 0, 0⟩]
        [("A".toList, ("0000_aaaaaaaa".toList, ([] : List Char), ([] : List Char))),
         ("B".toList, ("0001_bbbbbbbb".toList, ([] : List Char), ([] : List Char)))]
      = ([("A".toList, ("0000_aaaaaaaa".toList, ([] : List Char), ([] : List Char))),
          ("B".toList, ("0001_bbbbbbbb".toList, ([] : List Char), ([] : List Char)))].map
            (fun e => e.2.1)).filter
          (fun sid =>
            (dictGet [⟨"0000_aaaaaaaa".toList, 0, "<svg/>".toList,
              [], [], 0, 0⟩] sid).isNone) :=
  claim_C2 [⟨"0000_aaaaaaaa".toList, 0, "<svg/>".toList, [], [], 0, 0⟩]
    [("A".toList, ("0000_aaaaaaaa".toList, ([] : List Char), ([] : List Char))),
     ("B".toList, ("0001_bbbbbbbb".toList, ([] : List Char), ([] : List Char)))] "!".toList
    (by decide) (by decide)

/-- Claim C3: identifier uniqueness.  An extraction batch yields one record
per block and pairwise distinct identifiers, with no assumption that block
contents differ: the zero-padded sequence index embedded in each identifier
makes them distinct. -/
theorem claim_C3 (cc : Nat) (L : List (List Char × List Char))
    (tail : List Char)
    (hg : ∀ gb ∈ L, noOcc lc litOpen gb.1 ∧ IsWfSvg gb.2)
    (htail : noOcc lc litOpen tail) :
    (extract_svgs cc (asmSeg L tail)).2.length = L.length ∧
    (extract_svgs cc (asmSeg L tail)).2.Pairwise (fun a b => a.id ≠ b.id) := by
  rw [extract_svgs_asm hg htail]
  exact ⟨mkRecords_length, mkRecords_id_pairwise⟩

/-- Witness for C3: two byte-identical blocks still get distinct ids. -/
theorem claim_C3_witness :
    (extract_svgs 150 (asmSeg
        [("<p>A</p>".toList, "<svg a=\x22b\x22>x</svg>".toList),
         ("<p>B</p>".toList, "<svg a=\x22b\x22>x</svg>".toList)]
        "<p>C</p>".toList)).2.length = 2 ∧
    (extract_svgs 150 (asmSeg
        [("<p>A</p>".toList, "<svg a=\x22b\x22>x</svg>".toList),
         ("<p>B</p>".toList, "<svg a=\x22b\x22>x</svg>".toList)]
        "<p>C</p>".toList)).2.Pairwise (fun a b => a.id ≠ b.id) :=
  claim_C3 150
    [("<p>A</p>".toList, "<svg a=\x22b\x22>x</svg>".toList),
     ("<p>B</p>".toList, "<svg a=\x22b\x22>x</svg>".toList)]
    "<p>C</p>".toList
    (by
      intro gb hgb
      have hwf : IsWfSvg "<svg a=\x22b\x22>x</svg>".toList :=
        ⟨"<svg".toList, ' ', "a=\x22b\x22".toList, "x".toList,
          "</svg>".toList, by decide, by decide, by decide, by decide,
          by decide, by decide⟩
      rcases List.mem_cons.mp hgb with h1 | h1
      · subst h1
        exact ⟨by decide, hwf⟩
      · rw [List.mem_singleton] at h1
        subst h1
        exact ⟨by decide, hwf⟩)
    (by decide)

/-- Claim C4: identifier determinism.  Extraction is a pure function: the
same document yields the identical identifier list, and every identifier is
the deterministic function `generate_svg_id` of the record's content and
sequence index alone (no time, randomness or cross-run state). -/
theorem claim_C4 (cc : Nat) (D1 D2 : List Char) (h : D1 = D2) :
    (extract_svgs cc D1).2.map (fun r => r.id)
      = (extract_svgs cc D2).2.map (fun r => r.id) ∧
    ∀ r ∈ (extract_svgs cc D1).2,
      r.id = generate_svg_id r.svg_content r.index := by
  subst h
  exact ⟨rfl, fun r hr => extractLoop_ids (svgScan D1 0) 0 D1 0 r hr⟩

/-- Witness for C4 at a concrete document. -/
theorem claim_C4_witness :
    (extract_svgs 7 "<p>ab</p>".toList).2.map (fun r => r.id)
      = (extract_svgs 7 "<p>ab</p>".toList).2.map (fun r => r.id) ∧
    ∀ r ∈ (extract_svgs 7 "<p>ab</p>".toList).2,
      r.id = generate_svg_id r.svg_content r.index :=
  claim_C4 7 "<p>ab</p>".toList "<p>ab</p>".toList rfl

/-- Claim C5: context capture.  The two context windows are the at most
`cc` characters immediately before the span start and after the span end,
clipped at the document boundaries (total function, the window shrinks);
each returned string is the window stripped and whitespace-collapsed, so it
is at most `cc` long, starts and ends with non-whitespace, every remaining
whitespace character is a single space, and no two whitespace characters
are adjacent. -/
theorem claim_C5 (cc : Nat) (D : List Char) (s e : Nat) :
    ((D.take s).drop (s - cc)).length ≤ cc ∧
    ((D.drop e).take cc).length ≤ cc ∧
    extract_context cc D s e
      = (collapseWs (pyStrip ((D.take s).drop (s - cc))),
         collapseWs (pyStrip ((D.drop e).take cc))) ∧
    (extract_context cc D s e).1.length ≤ cc ∧
    (extract_context cc D s e).2.length ≤ cc ∧
    (∀ x, (extract_context cc D s e).1.head? = some x →
      isPySpace x = false) ∧
    (∀ x, (extract_context cc D s e).1.getLast? = some x →
      isPySpace x = false) ∧
    (∀ x, (extract_context cc D s e).2.head? = some x →
      isPySpace x = false) ∧
    (∀ x, (extract_context cc D s e).2.getLast? = some x →
      isPySpace x = false) ∧
    (∀ c ∈ (extract_context cc D s e).1, isPySpace c = true → c = ' ') ∧
    (∀ c ∈ (extract_context cc D s e).2, isPySpace c = true → c = ' ') ∧
    (∀ i a b, (extract_context cc D s e).1[i]? = some a →
      (extract_context cc D s e).1[i + 1]? = some b →
      isPySpace a = true → isPySpace b = true → False) ∧
    (∀ i a b, (extract_context cc D s e).2[i]? = some a →
      (extract_context cc D s e).2[i + 1]? = some b →
      isPySpace a = true → isPySpace b = true → False) := by
  have h1 : (extract_context cc D s e).1
      = collapseWs (pyStrip ((D.take s).drop (s - cc))) := rfl
  have h2 : (extract_context cc D s e).2
      = collapseWs (pyStrip ((D.drop e).take cc)) := rfl
  have hw1 : ((D.take s).drop (s - cc)).length ≤ cc := by
    simp only [List.length_drop, List.length_take]
    omega
  have hw2 : ((D.drop e).take cc).length ≤ cc := by
    simp only [List.length_take, List.length_drop]
    omega
  refine ⟨hw1, hw2, rfl, ?_, ?_, ?_, ?_, ?_, ?_, ?_, ?_, ?_, ?_⟩
  · rw [h1]
    have ha := collapseWs_length_le (pyStrip ((D.take s).drop (s - cc)))
    have hb := pyStrip_length_le ((D.take s).drop (s - cc))
    omega
  · rw [h2]
    have ha := collapseWs_length_le (pyStrip ((D.drop e).take cc))
    have hb := pyStrip_length_le ((D.drop e).take cc)
    omega
  · simp only [h1]
    exact collapseWs_pyStrip_head
  · simp only [h1]
    exact collapseWs_pyStrip_last
  · simp only [h2]
    exact collapseWs_pyStrip_head
  · simp only [h2]
    exact collapseWs_pyStrip_last
  · simp only [h1]
    exact collapseWs_ws_eq_space
  · simp only [h2]
    exact collapseWs_ws_eq_space
  · simp only [h1]
    exact collapseWs_no_adjacent_ws
  · simp only [h2]
    exact collapseWs_no_adjacent_ws

/-- Claim C6: locator span properties.  The spans the locator produces are
strictly ascending in start offset and pairwise non-overlapping (each next
span starts at or after the previous end), and every span slices out a
well-formed block: case-folded `<svg`, mandatory whitespace, attribute text
up to the first `>`, an arbitrary body (newlines included) and the nearest
subsequent case-folded `</svg>` (no closing marker occurs earlier), so a
nested same-type block is not treated as one nested unit. -/
theorem claim_C6 (D : List Char) :
    (svgScan D 0).Pairwise (fun a b => a.2 ≤ b.1) ∧
    (svgScan D 0).Pairwise (fun a b => a.1 < b.1) ∧
    ∀ sp ∈ svgScan D 0, sp.1 < sp.2 ∧ sp.2 ≤ D.length ∧
      IsWfSvg ((D.drop sp.1).take (sp.2 - sp.1)) := by
  have hb := svgScan_bounds (t := D) (p := 0)
  refine ⟨svgScan_pairwise, ?_, ?_⟩
  · refine svgScan_pairwise.imp_of_mem ?_
    intro a b ha hb' hab
    have h1 := (hb a ha).2.1
    omega
  · intro sp hsp
    obtain ⟨h0, h1, h2, h3⟩ := hb sp hsp
    rw [Nat.sub_zero] at h2 h3
    exact ⟨h1, h2, (svgMatchLen_some_wf h3).1⟩

/-- Claim C7: unterminated blocks.  On a mixed document — locator-inert
gaps, well-formed blocks, and a trailing part that may contain `<svg`
opening tags but no subsequent closing marker — the locator reports exactly
the well-formed blocks' spans: no partial or unterminated span is ever
emitted for the trailing part (every span ends within the structured
front), and extraction replaces only those blocks, leaving the unterminated
text untouched as the verbatim final segment of the output, with no error
or diagnostic raised. -/
theorem claim_C7 (cc : Nat) (L : List (List Char × List Char))
    (tail : List Char)
    (hg : ∀ gb ∈ L, noOcc lc litOpen gb.1 ∧ IsWfSvg gb.2)
    (htail : noOcc lc litClose tail) :
    svgScan (asmSeg L tail) 0 = spansOf L 0 ∧
    (∀ sp ∈ svgScan (asmSeg L tail) 0, sp.2 ≤ (asmSeg L []).length) ∧
    extract_svgs cc (asmSeg L tail)
      = (asmPB (mkPhData cc (asmSeg L tail) L 0 0) tail,
         mkRecords cc (asmSeg L tail) L 0 0) := by
  have htail' : ∀ q, svgScan tail q = [] :=
    fun q => svgScan_empty_of_no_close htail
  have hs := svgScan_asm_gen (p := 0) hg htail'
  refine ⟨hs, ?_, extract_svgs_asm_gen hg htail'⟩
  intro sp hsp
  rw [hs] at hsp
  simpa using spansOf_le sp hsp

/-- Witness for C7: one closed block followed by an unterminated opening
tag — the closed block is extracted, the unterminated text stays. -/
theorem claim_C7_witness :
    svgScan (asmSeg [("<p>A</p>".toList, "<svg a=\x22b\x22>x</svg>".toList)]
        "<svg b>never closed".toList) 0
      = spansOf [("<p>A</p>".toList, "<svg a=\x22b\x22>x</svg>".toList)] 0 ∧
    (∀ sp ∈ svgScan (asmSeg
        [("<p>A</p>".toList, "<svg a=\x22b\x22>x</svg>".toList)]
        "<svg b>never closed".toList) 0,
      sp.2 ≤ (asmSeg [("<p>A</p>".toList,
        "<svg a=\x22b\x22>x</svg>".toList)] []).length) ∧
    extract_svgs 5 (asmSeg
        [("<p>A</p>".toList, "<svg a=\x22b\x22>x</svg>".toList)]
        "<svg b>never closed".toList)
      = (asmPB (mkPhData 5 (asmSeg
            [("<p>A</p>".toList, "<svg a=\x22b\x22>x</svg>".toList)]
            "<svg b>never closed".toList)
          [("<p>A</p>".toList, "<svg a=\x22b\x22>x</svg>".toList)] 0 0)
          "<svg b>never closed".toList,
         mkRecords 5 (asmSeg
            [("<p>A</p>".toList, "<svg a=\x22b\x22>x</svg>".toList)]
            "<svg b>never closed".toList)
          [("<p>A</p>".toList, "<svg a=\x22b\x22>x</svg>".toList)] 0 0) :=
  claim_C7 5 [("<p>A</p>".toList, "<svg a=\x22b\x22>x</svg>".toList)]
    "<svg b>never closed".toList
    (by
      intro gb hgb
      rw [List.mem_singleton] at hgb
      subst hgb
      exact ⟨by decide, "<svg".toList, ' ', "a=\x22b\x22".toList, "x".toList,
        "</svg>".toList, by decide, by decide, by decide, by decide,
        by decide, by decide⟩)
    (by decide)

/-- Counterexample refuting claim C8 as stated: on `cexDoc`, whose two
blocks sit within each other's 150-character context windows, the first
extraction pass emits two placeholders (the first occupies bytes
[8, 8 + 242) of the modified document, the second [258, 258 + 242)), and a
second extraction pass over that output matches the spans (115, 133) and
(332, 350) — both strictly inside placeholder text, because the
`CONTEXT_BEFORE`/`CONTEXT_AFTER` annotation lines reproduce the neighbour
block's `<svg ...>...</svg>` text verbatim. -/
theorem claim_C8_cex :
    svgScan (extract_svgs 150 cexDoc).1 0 = [(115, 133), (332, 350)] ∧
    ((extract_svgs 150 cexDoc).2.map
        (fun r => create_placeholder r.id r.context_before
          r.context_after))[0]?
      = some (((extract_svgs 150 cexDoc).1.drop 8).take 242) ∧
    ((extract_svgs 150 cexDoc).2.map
        (fun r => create_placeholder r.id r.context_before
          r.context_after))[1]?
      = some (((extract_svgs 150 cexDoc).1.drop 258).take 242) ∧
    (extract_svgs 150 cexDoc).1.take 8 = "<a>1</a>".toList ∧
    (8 ≤ 115 ∧ 133 ≤ 8 + 242) ∧ (258 ≤ 332 ∧ 350 ≤ 258 + 242) := by
  rw [← extract_svgsF_eq,
    ← svgScanF_eq (extract_svgsF 150 cexDoc).1.length
      (extract_svgsF 150 cexDoc).1 0 (le_refl _)]
  decide

/-- Claim C8, amended: the marker comments and structural lines of a
placeholder are never matched by the locator — a second pass can only match
inside the captured context annotations.  When those annotations embed no
case-insensitive `<svg` text, a second extraction pass over the output of
`extract_svgs` matches nothing at all. -/
theorem claim_C8 (cc : Nat) (L : List (List Char × List Char))
    (tail : List Char)
    (hg : ∀ gb ∈ L, noOcc lc litOpen gb.1 ∧ IsWfSvg gb.2)
    (htail : noOcc lc litOpen tail)
    (hctx : ∀ e ∈ mkPhData cc (asmSeg L tail) L 0 0,
      noOcc lc litOpen (e.2.2.1.take 100) ∧
      noOcc lc litOpen (e.2.2.2.take 100)) :
    svgScan (extract_svgs cc (asmSeg L tail)).1 0 = [] :=
  second_pass_empty hg htail hctx

/-- Witness for the amended C8: a real one-block document with a
two-character context budget — the output contains a genuine placeholder,
its context annotations are too short to embed `<svg`, and the second pass
matches nothing. -/
theorem claim_C8_witness :
    svgScan (extract_svgs 2 (asmSeg
        [("<p>A</p>".toList, "<svg a=\x22b\x22>x</svg>".toList)]
        "<p>B</p>".toList)).1 0 = [] :=
  claim_C8 2 [("<p>A</p>".toList, "<svg a=\x22b\x22>x</svg>".toList)]
    "<p>B</p>".toList
    (by
      intro gb hgb
      rw [List.mem_singleton] at hgb
      subst hgb
      exact ⟨by decide, "<svg".toList, ' ', "a=\x22b\x22".toList, "x".toList,
        "</svg>".toList, by decide, by decide, by decide, by decide,
        by decide, by decide⟩)
    (by decide)
    (by
      intro e he
      obtain ⟨-, -, s, ee, hc1, hc2⟩ := mkPhData_mem he
      have hsm := @noOcc_context_take_of_small lc litOpen 2
        (asmSeg [("<p>A</p>".toList, "<svg a=\x22b\x22>x</svg>".toList)]
          "<p>B</p>".toList) s ee (by decide)
      refine ⟨?_, ?_⟩
      · rw [hc1]
        exact hsm.1
      · rw [hc2]
        exact hsm.2)

/-- Claim C9: empty-safe statistics.  An empty record list yields the
explicit empty case with `total = 0` — no average is computed, so no
division of zero by zero occurs; a non-empty list yields count, minimum,
maximum, exact average `sum / count` and total of the content lengths, with
minimum and maximum realised by and bounding the lengths. -/
theorem claim_C9 (l : List SvgData) (h : l ≠ []) :
    get_svg_stats [] = SvgStats.emptyStats ∧
    (get_svg_stats []).total = 0 ∧
    get_svg_stats l = SvgStats.fullStats l.length
      (minList (l.map (fun d => d.svg_content.length)))
      (maxList (l.map (fun d => d.svg_content.length)))
      ((((l.map (fun d => d.svg_content.length)).sum : Nat) : Rat)
        / (l.length : Rat))
      ((l.map (fun d => d.svg_content.length)).sum) ∧
    minList (l.map (fun d => d.svg_content.length))
      ∈ l.map (fun d => d.svg_content.length) ∧
    maxList (l.map (fun d => d.svg_content.length))
      ∈ l.map (fun d => d.svg_content.length) ∧
    ∀ x ∈ l.map (fun d => d.svg_content.length),
      minList (l.map (fun d => d.svg_content.length)) ≤ x ∧
      x ≤ maxList (l.map (fun d => d.svg_content.length)) := by
  obtain ⟨d, r, rfl⟩ : ∃ d r, l = d :: r := by
    cases l with
    | nil => exact absurd rfl h
    | cons d r => exact ⟨d, r, rfl⟩
  exact ⟨rfl, rfl, rfl, minList_mem (by simp), maxList_mem (by simp),
    fun x hx => ⟨minList_le x hx, maxList_ge x hx⟩⟩

/-- Witness for C9 on a two-record list. -/
theorem claim_C9_witness :
    ([⟨"a".toList, 0, "xy".toList, [], [], 0, 0⟩,
      ⟨"b".toList, 1, "pqrs".toList, [], [], 0, 0⟩] : List SvgData) ≠ [] ∧
    (get_svg_stats [] = SvgStats.emptyStats ∧
     (get_svg_stats []).total = 0 ∧
     get_svg_stats [⟨"a".toList, 0, "xy".toList, [], [], 0, 0⟩,
        ⟨"b".toList, 1, "pqrs".toList, [], [], 0, 0⟩]
       = SvgStats.fullStats
          ([⟨"a".toList, 0, "xy".toList, [], [], 0, 0⟩,
            ⟨"b".toList, 1, "pqrs".toList, [], [], 0, 0⟩] : List SvgData).length
          (minList (([⟨"a".toList, 0, "xy".toList, [], [], 0, 0⟩,
            ⟨"b".toList, 1, "pqrs".toList, [], [], 0, 0⟩] : List SvgData).map
              (fun d => d.svg_content.length)))
          (maxList (([⟨"a".toList, 0, "xy".toList, [], [], 0, 0⟩,
            ⟨"b".toList, 1, "pqrs".toList, [], [], 0, 0⟩] : List SvgData).map
              (fun d => d.svg_content.length)))
          ((((([⟨"a".toList, 0, "xy".toList, [], [], 0, 0⟩,
            ⟨"b".toList, 1, "pqrs".toList, [], [], 0, 0⟩] : List SvgData).map
              (fun d => d.svg_content.length)).sum : Nat) : Rat)
            / (([⟨"a".toList, 0, "xy".toList, [], [], 0, 0⟩,
              ⟨"b".toList, 1, "pqrs".toList, [], [], 0, 0⟩]
                : List SvgData).length : Rat))
          ((([⟨"a".toList, 0, "xy".toList, [], [], 0, 0⟩,
            ⟨"b".toList, 1, "pqrs".toList, [], [], 0, 0⟩] : List SvgData).map
              (fun d => d.svg_content.length)).sum) ∧
     minList (([⟨"a".toList, 0, "xy".toList, [], [], 0, 0⟩,
        ⟨"b".toList, 1, "pqrs".toList, [], [], 0, 0⟩] : List SvgData).map
          (fun d => d.svg_content.length))
       ∈ ([⟨"a".toList, 0, "xy".toList, [], [], 0, 0⟩,
          ⟨"b".toList, 1, "pqrs".toList, [], [], 0, 0⟩] : List SvgData).map
            (fun d => d.svg_content.length) ∧
     maxList (([⟨"a".toList, 0, "xy".toList, [], [], 0, 0⟩,
        ⟨"b".toList, 1, "pqrs".toList, [], [], 0, 0⟩] : List SvgData).map
          (fun d => d.svg_content.length))
       ∈ ([⟨"a".toList, 0, "xy".toList, [], [], 0, 0⟩,
          ⟨"b".toList, 1, "pqrs".toList, [], [], 0, 0⟩] : List SvgData).map
            (fun d => d.svg_content.length) ∧
     ∀ x ∈ ([⟨"a".toList, 0, "xy".toList, [], [], 0, 0⟩,
        ⟨"b".toList, 1, "pqrs".toList, [], [], 0, 0⟩] : List SvgData).map
          (fun d => d.svg_content.length),
       minList (([⟨"a".toList, 0, "xy".toList, [], [], 0, 0⟩,
          ⟨"b".toList, 1, "pqrs".toList, [], [], 0, 0⟩] : List SvgData).map
            (fun d => d.svg_content.length)) ≤ x ∧
       x ≤ maxList (([⟨"a".toList, 0, "xy".toList, [], [], 0, 0⟩,
          ⟨"b".toList, 1, "pqrs".toList, [], [], 0, 0⟩] : List SvgData).map
            (fun d => d.svg_content.length))) :=
  ⟨by decide,
   claim_C9 [⟨"a".toList, 0, "xy".toList, [], [], 0, 0⟩,
     ⟨"b".toList, 1, "pqrs".toList, [], [], 0, 0⟩] (by decide)⟩

/-- Claim C10: identifier character class.  Every generated identifier
consists solely of `[a-f0-9_]` characters (four-digit zero-padded decimal
index, underscore, eight lowercase hex characters), so every placeholder
emitted for a generated identifier is recognised by the decoder's
`PLACEHOLDER_PATTERN`, whose capture group accepts exactly that class: the
match covers the whole placeholder and captures the identifier. -/
theorem claim_C10 (content : List Char) (index : Nat) (cb ca rest : List Char)
    (hcb : noOcc (fun c => c) litPH (cb.take 100))
    (hca : noOcc (fun c => c) litPH (ca.take 100)) :
    (∀ c ∈ generate_svg_id content index, classChar c = true) ∧
    placeholderMatch
        (create_placeholder (generate_svg_id content index) cb ca ++ rest)
      = some ((create_placeholder (generate_svg_id content index) cb ca).length,
          generate_svg_id content index) :=
  ⟨generate_svg_id_class,
   placeholderMatch_create generate_svg_id_ne_nil generate_svg_id_class
     hcb hca⟩

/-- Witness for C10 at concrete content and contexts. -/
theorem claim_C10_witness :
    (∀ c ∈ generate_svg_id "<svg/>".toList 3, classChar c = true) ∧
    placeholderMatch
        (create_placeholder (generate_svg_id "<svg/>".toList 3)
          "before".toList "after".toList ++ "rest".toList)
      = some ((create_placeholder (generate_svg_id "<svg/>".toList 3)
          "before".toList "after".toList).length,
          generate_svg_id "<svg/>".toList 3) :=
  claim_C10 "<svg/>".toList 3 "before".toList "after".toList "rest".toList
    (by decide) (by decide)

end SvgManager
